import Mathlib

/-!
# Hanover flip-dot display: protocol encoder and text layout

A shallow embedding of `src/driver/hanover_flipdot.c` (frame encoder) and
`src/hanover.c` (text layout) together with theorems about them.

Conventions of the embedding:

* A C pointer to bytes is a total map `Nat → Nat` from the offset relative to
  the pointer to the cell stored there.  A load reduces the cell modulo 256
  (a `uint8_t` read), a store writes the value modulo 256.
* `uint16_t` variables are natural numbers; every assignment that can leave the
  16-bit range is reduced modulo 65536.  Expressions are evaluated in `int`
  (32 bit) as C's integer promotions prescribe; products of two `uint16_t`
  values are left unreduced, i.e. the model covers `rows * cols < 2 ^ 31`.
* A `for` loop with a `uint16_t` counter running from `0` to a bound below
  65536 is the fold `for_upto`.
-/

namespace Hanover

/-! ## Memory and loops -/

/-- Read of a `uint8_t` cell. -/
def load (m : Nat → Nat) (i : Nat) : Nat := m i % 256

/-- Write of a `uint8_t` cell. -/
def store (m : Nat → Nat) (i v : Nat) : Nat → Nat :=
  fun p => if p = i then v % 256 else m p

/-- The first `n` bytes found at a pointer. -/
def bytes (m : Nat → Nat) (n : Nat) : List Nat := (List.range n).map (load m)

/-- The pointer to the first element of a byte sequence; cells past its end read 0. -/
def ofList (d : List Nat) : Nat → Nat := fun i => d.getD i 0

/-- Body `f` executed for the counter values `0, 1, ..., n - 1` in turn. -/
def for_upto {σ : Type} : Nat → (Nat → σ → σ) → σ → σ
  | 0, _, s => s
  | k + 1, f, s => f k (for_upto k f s)

/-! ## `src/driver/hanover_flipdot.c` -/

def HANOVER_FRAME_START : Nat := 0x02
def HANOVER_FRAME_END : Nat := 0x03
def HANOVER_FRAME_ADDR1 : Nat := 0x31
def HANOVER_FRAME_ADDR2 (x : Nat) : Nat := 0x30 + x

/-- Macro `HNIBBLE(x)`: `(((uint8_t)x) >> 4)`. -/
def HNIBBLE (x : Nat) : Nat := (x % 256) >>> 4
/-- Macro `LNIBBLE(x)`: `(((uint8_t)x) & 0x0f)`. -/
def LNIBBLE (x : Nat) : Nat := (x % 256) &&& 0x0f

/-- Macro `ASCII_BYTE(x)`: `((x >= 0x0a) ? ('A' + (x - 0x0a)) : ('0' + x))`. -/
def ASCII_BYTE (x : Nat) : Nat := if x ≥ 0x0a then 65 + (x - 0x0a) else 48 + x

def HANOVER_FRAME_ASCII_HBYTE (x : Nat) : Nat := ASCII_BYTE (HNIBBLE x)
def HANOVER_FRAME_ASCII_LBYTE (x : Nat) : Nat := ASCII_BYTE (LNIBBLE x)

/-- One pass of the inner loop body of `transform_data`: the state is the
output memory and the counter `n`. -/
def transform_data_body (ascii_bytes : Nat) (input_bytes : Nat → Nat) (cols col row : Nat)
    (st : (Nat → Nat) × Nat) : (Nat → Nat) × Nat :=
  let linear_n := (row * cols + col) % 65536
  let n := st.2
  let mem := store st.1 (ascii_bytes + n * 2) (HANOVER_FRAME_ASCII_HBYTE (load input_bytes linear_n))
  let mem := store mem (ascii_bytes + (n * 2 + 1)) (HANOVER_FRAME_ASCII_LBYTE (load input_bytes linear_n))
  (mem, (n + 1) % 65536)

/-- The two nested loops of `transform_data` with their state. -/
def transform_data_loop (ascii_bytes : Nat) (input_bytes : Nat → Nat) (rows cols : Nat)
    (mem : Nat → Nat) : (Nat → Nat) × Nat :=
  for_upto cols (fun col st =>
    for_upto (rows / 8) (fun row st => transform_data_body ascii_bytes input_bytes cols col row st) st)
    (mem, 0)

/-- Function `transform_data(ascii_bytes, input_bytes, rows, cols)`: `mem` is the block
the output pointer points into, `ascii_bytes` the pointer's offset in it; the
result is the block after the call. -/
def transform_data (mem : Nat → Nat) (ascii_bytes : Nat) (input_bytes : Nat → Nat)
    (rows cols : Nat) : Nat → Nat :=
  (transform_data_loop ascii_bytes input_bytes rows cols mem).1

/-- Function `calc_chksum(data, n_data)`; `sum` is a `uint16_t`. -/
def calc_chksum (data : Nat → Nat) (n_data : Nat) : Nat :=
  let sum := for_upto n_data (fun i sum => (sum + load data i) % 65536) 0
  let sum := (sum + 65536 - HANOVER_FRAME_START) % 65536
  let sum := sum &&& 0xff
  let sum := sum ^^^ 0xff
  let sum := (sum + 1) % 65536
  sum

/-- Function `matrix_to_raw(matrix, rows, cols, addr, &n_data)`.  `heap` is what `malloc`
hands out: `none` when the allocation fails, otherwise the (indeterminate)
content of the fresh block.  The result is the block and the value stored in
`*n_data`, or `none` for the `NULL` return.  The indices `data_frame_len - 3`,
`- 2`, `- 1` are those of C whenever `data_frame_len ≥ 3`; a smaller (wrapped)
length makes C index below the block, which is outside this model. -/
def matrix_to_raw (heap : Option (Nat → Nat)) (matrix : Nat → Nat) (rows cols addr : Nat) :
    Option ((Nat → Nat) × Nat) :=
  let res := ((rows * cols) / 8) % 65536
  let data_frame_len := (1 + 2 + 2 + (res * 2) + 1 + 2) % 65536
  match heap with
  | none => none
  | some data_frame =>
    let data_frame := store data_frame 0 HANOVER_FRAME_START
    let data_frame := store data_frame 1 HANOVER_FRAME_ADDR1
    let data_frame := store data_frame 2 (HANOVER_FRAME_ADDR2 addr)
    let data_frame := store data_frame 3 (HANOVER_FRAME_ASCII_HBYTE (res &&& 0xff))
    let data_frame := store data_frame 4 (HANOVER_FRAME_ASCII_LBYTE (res &&& 0xff))
    let data_frame := transform_data data_frame 5 matrix rows cols
    let data_frame := store data_frame (data_frame_len - 1 - 2) HANOVER_FRAME_END
    let chksum := calc_chksum data_frame (data_frame_len - 2)
    let data_frame := store data_frame (data_frame_len - 2) (HANOVER_FRAME_ASCII_HBYTE (chksum &&& 0xff))
    let data_frame := store data_frame (data_frame_len - 1) (HANOVER_FRAME_ASCII_LBYTE (chksum &&& 0xff))
    some (data_frame, data_frame_len)

/-! ## `src/hanover.c`

A message is the list of the character codes of a C string; the terminating
NUL is the end of the list (a code 0 inside the list terminates the string
there, as it would in C).  The font table `font8x8_basic` comes from a header
outside the repository and is a parameter: `font8x8_basic c` is the pointer to
the 8 row bytes of the glyph of character `c`. -/

def DISPLAY_N_ROWS : Nat := 16
def DISPLAY_N_COLS : Nat := 96

/-- Function `set_dot(display_area, row, col, dot)`; `~(1 << (row % 8))` is taken on the
8 bits the `uint8_t` cell keeps. -/
def set_dot (display_area : Nat → Nat) (row col dot : Nat) : Nat → Nat :=
  if dot ≠ 0 then
    store display_area ((row / 8) * DISPLAY_N_COLS + col)
      (load display_area ((row / 8) * DISPLAY_N_COLS + col) ||| (1 <<< (row % 8)))
  else
    store display_area ((row / 8) * DISPLAY_N_COLS + col)
      (load display_area ((row / 8) * DISPLAY_N_COLS + col) &&& (0xff ^^^ (1 <<< (row % 8))))

/-- Function `get_font_char(c, font_char)`: the 8 bytes copied into `font_char`. -/
def get_font_char (font8x8_basic : Nat → Nat → Nat) (c : Nat) : Nat → Nat :=
  fun i => load (font8x8_basic c) i

/-- The glyph loop of `sprintf_display` (the two nested `for` loops over `i`
and `j`): the arguments of `set_dot` are converted to `uint16_t` and `uint8_t`. -/
def draw_glyph (font_char : Nat → Nat) (display_area : Nat → Nat) (bit_row bit_col : Nat) :
    Nat → Nat :=
  for_upto 8 (fun i area =>
    for_upto 8 (fun j area =>
      set_dot area ((bit_row + i) % 65536) ((bit_col + j) % 65536)
        ((font_char i &&& (1 <<< j)) % 256)) area) display_area

/-- The local variables of `sprintf_display` that live across loop passes, and
two observers that are not in the source: `cells` records, for every character
consumed so far, the cell `(char_row, char_col)` its glyph was rasterized at
(`none` for a character consumed without rasterizing), and `returned` tells
that the function left through `return ++processed_chars`. -/
structure Layout where
  display_area : Nat → Nat
  char_row : Nat
  char_col : Nat
  processed_chars : Nat
  cells : List (Option (Nat × Nat))
  returned : Bool

/-- The label `next`: `msg++` is the recursion of the loop, here
`processed_chars++`; `cell` is the record for the character just consumed. -/
def Layout.next (s : Layout) (cell : Option (Nat × Nat)) : Layout :=
  { s with processed_chars := (s.processed_chars + 1) % 65536, cells := s.cells ++ [cell] }

/-- The cursor advance before the label `next`. -/
def Layout.advance (s : Layout) (cols : Nat) : Layout :=
  if Int.ofNat s.char_col < Int.ofNat (cols / 8) - 1 then
    { s with char_col := (s.char_col + 1) % 65536 }
  else
    { s with char_row := (s.char_row + 1) % 65536, char_col := 0 }

/-- The value of `word - msg - 1` after the scan `while (*word && (*word != ' ')) word++`,
where `rest` is the string at `msg + 1`. -/
def word_len (rest : List Nat) : Nat :=
  (rest.takeWhile (fun c => c != 0 && c != 32)).length

/-- The `while (*msg)` loop of `sprintf_display`; the list is the string at `msg`. -/
def sprintf_display_loop (font8x8_basic : Nat → Nat → Nat) (rows cols : Nat) :
    List Nat → Layout → Layout
  | [], s => s
  | c :: rest, s =>
    if c = 0 then s
    else if c = 32 ∧ s.char_col = 0 then
      sprintf_display_loop font8x8_basic rows cols rest (s.next none)
    else
      let cell := (s.char_row, s.char_col)
      let bit_row := (s.char_row * 8) % 65536
      let bit_col := (s.char_col * 8) % 65536
      let area := draw_glyph (get_font_char font8x8_basic c) s.display_area bit_row bit_col
      let s := { s with display_area := area }
      if c = 32 ∧ rest.headD 0 ≠ 0 ∧ rest.headD 0 ≠ 32 then
        if Int.ofNat (word_len rest) > Int.ofNat (cols / 8) then
          sprintf_display_loop font8x8_basic rows cols rest (s.next (some cell))
        else if Int.ofNat (word_len rest) > Int.ofNat (cols / 8) - Int.ofNat s.char_col - 1 - 1 then
          if Int.ofNat s.char_row < Int.ofNat (rows / 8) - 1 then
            sprintf_display_loop font8x8_basic rows cols rest
              (Layout.next { s with char_row := (s.char_row + 1) % 65536, char_col := 0 }
                (some cell))
          else
            { s with processed_chars := (s.processed_chars + 1) % 65536,
                     cells := s.cells ++ [some cell], returned := true }
        else
          sprintf_display_loop font8x8_basic rows cols rest ((s.advance cols).next (some cell))
      else
        sprintf_display_loop font8x8_basic rows cols rest ((s.advance cols).next (some cell))

/-- Function `sprintf_display(msg, display_area, rows, cols)`; the value returned by the
C function is the field `processed_chars` of the result. -/
def sprintf_display (font8x8_basic : Nat → Nat → Nat) (msg : List Nat) (display_area : Nat → Nat)
    (rows cols : Nat) : Layout :=
  sprintf_display_loop font8x8_basic rows cols msg
    { display_area := display_area, char_row := 0, char_col := 0, processed_chars := 0,
      cells := [], returned := false }

/-! ## Definitions used to state the properties -/

/-- The uppercase ASCII hex digit for a value `0..15`: `'0'..'9'`, then `'A'..'F'`. -/
def hexDigit (d : Nat) : Nat := ("0123456789ABCDEF".toList.getD d '?').toNat

/-- The hex digit of the high nibble of a byte. -/
def hexHigh (b : Nat) : Nat := hexDigit (b / 16)

/-- The hex digit of the low nibble of a byte. -/
def hexLow (b : Nat) : Nat := hexDigit (b % 16)

/-- The output block after the first `k` passes of the inner loop body of
`transform_data` (with `R = rows / 8` byte-rows), in closed form. -/
def transform_written (base : Nat) (input : Nat → Nat) (R cols k : Nat) (mem : Nat → Nat) :
    Nat → Nat :=
  fun p =>
    if base ≤ p ∧ p < base + 2 * k then
      if (p - base) % 2 = 0 then
        HANOVER_FRAME_ASCII_HBYTE (load input (((p - base) / 2 % R) * cols + (p - base) / 2 / R))
      else
        HANOVER_FRAME_ASCII_LBYTE (load input (((p - base) / 2 % R) * cols + (p - base) / 2 / R))
    else mem p

/-- The byte sequence `transform_data` produces for a bitmap: the
`2 * (rows/8) * cols` cells it writes, read off a block that was all zero. -/
def transform_output (input : Nat → Nat) (rows cols : Nat) : List Nat :=
  bytes (transform_data (fun _ => 0) 0 input rows cols) (2 * (rows / 8 * cols))

/-- A frame from the start marker through the end marker, as §4.3 lays it out. -/
def frame_body (matrix : Nat → Nat) (rows cols addr : Nat) : List Nat :=
  [0x02, 0x31, 0x30 + addr, hexHigh (rows * cols / 8 % 256), hexLow (rows * cols / 8 % 256)]
    ++ transform_output matrix rows cols ++ [0x03]

/-- The low 8 bits of the checksum of a frame body. -/
def frame_chksum (matrix : Nat → Nat) (rows cols addr : Nat) : Nat :=
  calc_chksum (ofList (frame_body matrix rows cols addr))
    (frame_body matrix rows cols addr).length % 256

/-- The complete frame as §4.3 lays it out: body, then the two hex digits of
the checksum. -/
def frame_expected (matrix : Nat → Nat) (rows cols addr : Nat) : List Nat :=
  frame_body matrix rows cols addr
    ++ [hexHigh (frame_chksum matrix rows cols addr), hexLow (frame_chksum matrix rows cols addr)]

/-- The value `0..15` of an uppercase ASCII hex digit (0 for any other byte). -/
def hexValue (c : Nat) : Nat :=
  if 48 ≤ c ∧ c ≤ 57 then c - 48 else if 65 ≤ c ∧ c ≤ 70 then c - 55 else 0

/-- The byte that two ASCII hex digits, high nibble first, decode to. -/
def hexByte (hi lo : Nat) : Nat := hexValue hi * 16 + hexValue lo

/-- A layout state with `k` more characters counted and the records `pre`
in front of its own. -/
def Layout.shift (s : Layout) (k : Nat) (pre : List (Option (Nat × Nat))) : Layout :=
  { s with processed_chars := (s.processed_chars + k) % 65536, cells := pre ++ s.cells }

/-- Bit `b` of the byte at index `p` of a bitmap. -/
def pixel (m : Nat → Nat) (p b : Nat) : Bool := (load m p).testBit b

/-! ## `write_raw_tty` of `src/driver/hanover_flipdot.c`

The transport behind `write(fd, data, count)` is a parameter: a function from
the transport's state, the bytes found at `data` and the value of `remain_len`
passed as `count` to the value assigned to `ret` and the transport's next
state.  `remain_len` and `ret` are C `int`s, unbounded integers here.  The loop
has no bound in C; the model runs it for at most `fuel` calls. -/

/-- Value of `EINVAL` in the Linux `<errno.h>`. -/
def EINVAL : Int := 22
/-- Value of `EFAULT` in the Linux `<errno.h>`. -/
def EFAULT : Int := 14

/-- The variables of the loop of `write_raw_tty`: the transport's state, the
offset of the pointer `data` in the buffer, `remain_len`, and an observer that
is not in the source: `calls` records `(offset, count, ret)` of every `write`
call made so far. -/
structure WriteState (σ : Type) where
  tty : σ
  data : Nat
  remain_len : Int
  calls : List (Nat × Int × Int)

/-- The loop `while ((ret = write(fd, data, remain_len)) > 0)` run for at most
`fuel` calls; the flag tells whether the loop was left (`ret ≤ 0`). -/
def write_raw_tty_loop {σ : Type} (write : σ → (Nat → Nat) → Int → Int × σ) (buf : Nat → Nat) :
    Nat → WriteState σ → WriteState σ × Bool
  | 0, st => (st, false)
  | fuel + 1, st =>
    let r := write st.tty (fun i => buf (st.data + i)) st.remain_len
    let calls := st.calls ++ [(st.data, st.remain_len, r.1)]
    if r.1 > 0 then
      write_raw_tty_loop write buf fuel
        { tty := r.2, data := st.data + r.1.toNat, remain_len := st.remain_len - r.1,
          calls := calls }
    else
      ({ tty := r.2, data := st.data, remain_len := st.remain_len, calls := calls }, true)

/-- Function `write_raw_tty(fd, data, data_sz)`: `data` is `none` for a null
pointer.  The result is the value returned (`none` when `fuel` calls did not
end the loop) and the record of the `write` calls. -/
def write_raw_tty {σ : Type} (write : σ → (Nat → Nat) → Int → Int × σ) (tty : σ) (fd : Int)
    (data : Option (Nat → Nat)) (data_sz : Nat) (fuel : Nat) :
    Option Int × List (Nat × Int × Int) :=
  match data with
  | none => (some (-EINVAL), [])
  | some buf =>
    if fd < 0 ∨ data_sz = 0 then (some (-EINVAL), [])
    else
      let out := write_raw_tty_loop write buf fuel
        { tty := tty, data := 0, remain_len := Int.ofNat data_sz, calls := [] }
      if out.2 then
        (some (if out.1.remain_len ≠ 0 then -EFAULT else 0), out.1.calls)
      else (none, out.1.calls)

/-- The bytes a `write` call accepted: the first `ret` bytes at its offset. -/
def accepted_chunk (buf : Nat → Nat) (call : Nat × Int × Int) : List Nat :=
  (List.range call.2.2.toNat).map (fun i => load buf (call.1 + i))

/-- The number of bytes accepted by a list of `write` calls. -/
def accepted_total (calls : List (Nat × Int × Int)) : Nat :=
  (calls.map (fun call => call.2.2.toNat)).sum

/-- One of the characters `'0'`-`'9'`, `'A'`-`'F'`. -/
def isHexChar (c : Nat) : Bool := (48 ≤ c && c ≤ 57) || (65 ≤ c && c ≤ 70)

/-! # Theorems -/

/-! ## Facts about the hex-digit macros -/

theorem HNIBBLE_eq (x : Nat) : HNIBBLE x = x % 256 / 16 := by
  unfold HNIBBLE
  rw [Nat.shiftRight_eq_div_pow]

theorem LNIBBLE_eq (x : Nat) : LNIBBLE x = x % 16 := by
  unfold LNIBBLE
  have h := Nat.and_pow_two_sub_one_eq_mod (x % 256) 4
  norm_num at h
  rw [h]

theorem and_ff_eq (x : Nat) : x &&& 0xff = x % 256 := by
  have h := Nat.and_pow_two_sub_one_eq_mod x 8
  norm_num at h
  exact h

theorem HNIBBLE_lt (x : Nat) : HNIBBLE x < 16 := by
  rw [HNIBBLE_eq]; omega

theorem LNIBBLE_lt (x : Nat) : LNIBBLE x < 16 := by
  rw [LNIBBLE_eq]; omega

theorem ASCII_BYTE_lt (x : Nat) (h : x < 16) : ASCII_BYTE x < 256 := by
  unfold ASCII_BYTE
  split <;> omega

theorem HBYTE_lt (x : Nat) : HANOVER_FRAME_ASCII_HBYTE x < 256 :=
  ASCII_BYTE_lt _ (HNIBBLE_lt x)

theorem LBYTE_lt (x : Nat) : HANOVER_FRAME_ASCII_LBYTE x < 256 :=
  ASCII_BYTE_lt _ (LNIBBLE_lt x)

/-! ## The column-major transform -/

theorem transform_written_zero (base : Nat) (input : Nat → Nat) (R cols : Nat) (mem : Nat → Nat) :
    transform_written base input R cols 0 mem = mem := by
  funext p
  unfold transform_written
  split
  · omega
  · rfl

theorem transform_body_written (base : Nat) (input : Nat → Nat) (R cols col row : Nat)
    (mem : Nat → Nat) (hrow : row < R) (hcol : col < cols) (hN : R * cols ≤ 65535) :
    transform_data_body base input cols col row
        (transform_written base input R cols (col * R + row) mem, col * R + row)
      = (transform_written base input R cols (col * R + row + 1) mem, col * R + row + 1) := by
  have hk : col * R + row < R * cols := by
    have h1 : col * R + R ≤ cols * R := by
      have := Nat.mul_le_mul_right R (Nat.succ_le_of_lt hcol)
      rw [Nat.succ_mul] at this
      exact this
    rw [Nat.mul_comm R cols]
    omega
  have hlin : row * cols + col < R * cols := by
    have h1 : row * cols + cols ≤ R * cols := by
      have := Nat.mul_le_mul_right cols (Nat.succ_le_of_lt hrow)
      rw [Nat.succ_mul] at this
      exact this
    omega
  have hmod : (col * R + row) % R = row := by
    rw [Nat.add_comm, Nat.add_mul_mod_self_right, Nat.mod_eq_of_lt hrow]
  have hdiv : (col * R + row) / R = col := by
    have hR : 0 < R := by omega
    rw [Nat.add_comm, Nat.add_mul_div_right _ _ hR, Nat.div_eq_of_lt hrow, Nat.zero_add]
  unfold transform_data_body
  simp only
  rw [Nat.mod_eq_of_lt (by omega : row * cols + col < 65536),
    Nat.mod_eq_of_lt (by omega : col * R + row + 1 < 65536)]
  congr 1
  funext p
  unfold store transform_written
  have hH := HBYTE_lt (load input (row * cols + col))
  have hL := LBYTE_lt (load input (row * cols + col))
  by_cases h1 : p = base + ((col * R + row) * 2 + 1)
  · have hq : (p - base) / 2 = col * R + row := by omega
    rw [if_pos h1, if_pos (by omega), if_neg (by omega), hq, hmod, hdiv, Nat.mod_eq_of_lt hL]
  · rw [if_neg h1]
    by_cases h0 : p = base + (col * R + row) * 2
    · have hq : (p - base) / 2 = col * R + row := by omega
      rw [if_pos h0, if_pos (by omega), if_pos (by omega), hq, hmod, hdiv, Nat.mod_eq_of_lt hH]
    · rw [if_neg h0]
      by_cases hin : base ≤ p ∧ p < base + 2 * (col * R + row)
      · have hin2 : base ≤ p ∧ p < base + 2 * (col * R + row + 1) := by omega
        rw [if_pos hin, if_pos hin2]
      · have hin2 : ¬ (base ≤ p ∧ p < base + 2 * (col * R + row + 1)) := by omega
        rw [if_neg hin, if_neg hin2]

theorem transform_inner_written (base : Nat) (input : Nat → Nat) (R cols col : Nat)
    (mem : Nat → Nat) (hcol : col < cols) (hN : R * cols ≤ 65535) (r : Nat) (hr : r ≤ R) :
    for_upto r (fun row st => transform_data_body base input cols col row st)
        (transform_written base input R cols (col * R) mem, col * R)
      = (transform_written base input R cols (col * R + r) mem, col * R + r) := by
  induction r with
  | zero => rfl
  | succ r ih =>
    simp only [for_upto]
    rw [ih (by omega)]
    exact transform_body_written base input R cols col r mem (by omega) hcol hN

theorem transform_outer_written (base : Nat) (input : Nat → Nat) (R cols : Nat)
    (mem : Nat → Nat) (hN : R * cols ≤ 65535) (c : Nat) (hc : c ≤ cols) :
    for_upto c (fun col st =>
        for_upto R (fun row st => transform_data_body base input cols col row st) st) (mem, 0)
      = (transform_written base input R cols (c * R) mem, c * R) := by
  induction c with
  | zero =>
    simp only [for_upto, Nat.zero_mul]
    rw [transform_written_zero]
  | succ c ih =>
    simp only [for_upto]
    rw [ih (by omega), transform_inner_written base input R cols c mem (by omega) hN R (Nat.le_refl R)]
    rw [Nat.succ_mul]

/-- Closed form of `transform_data` when the counter `n` cannot wrap. -/
theorem transform_data_eq (mem : Nat → Nat) (base : Nat) (input : Nat → Nat) (rows cols : Nat)
    (hN : rows / 8 * cols ≤ 65535) :
    transform_data mem base input rows cols
      = transform_written base input (rows / 8) cols (rows / 8 * cols) mem := by
  unfold transform_data transform_data_loop
  rw [transform_outer_written base input (rows / 8) cols mem hN cols (Nat.le_refl cols)]
  rw [Nat.mul_comm cols]

theorem ASCII_BYTE_eq_hexDigit (d : Nat) (h : d < 16) : ASCII_BYTE d = hexDigit d := by
  interval_cases d <;> rfl

theorem HBYTE_eq_hexHigh (b : Nat) (h : b < 256) : HANOVER_FRAME_ASCII_HBYTE b = hexHigh b := by
  unfold HANOVER_FRAME_ASCII_HBYTE hexHigh
  rw [HNIBBLE_eq, Nat.mod_eq_of_lt h]
  exact ASCII_BYTE_eq_hexDigit _ (by omega)

theorem LBYTE_eq_hexLow (b : Nat) : HANOVER_FRAME_ASCII_LBYTE b = hexLow b := by
  unfold HANOVER_FRAME_ASCII_LBYTE hexLow
  rw [LNIBBLE_eq]
  exact ASCII_BYTE_eq_hexDigit _ (by omega)

theorem load_ofList (d : List Nat) (hd : ∀ b ∈ d, b < 256) (i : Nat) :
    load (ofList d) i = d.getD i 0 := by
  unfold load ofList
  apply Nat.mod_eq_of_lt
  by_cases hi : i < d.length
  · rw [List.getD_eq_getElem _ _ hi]
    exact hd _ (List.getElem_mem hi)
  · rw [List.getD_eq_default _ _ (by omega)]
    omega

theorem getD_lt_256 (d : List Nat) (hd : ∀ b ∈ d, b < 256) (i : Nat) : d.getD i 0 < 256 := by
  rw [← load_ofList d hd i]
  unfold load
  omega

/-- Cells of the output of `transform_data`, addressed by column and byte-row. -/
theorem transform_data_cell (mem : Nat → Nat) (base : Nat) (input : Nat → Nat) (rows cols : Nat)
    (hN : rows / 8 * cols ≤ 65535) (col byteRow : Nat) (hcol : col < cols)
    (hrow : byteRow < rows / 8) :
    transform_data mem base input rows cols (base + 2 * (col * (rows / 8) + byteRow))
        = HANOVER_FRAME_ASCII_HBYTE (load input (byteRow * cols + col)) ∧
    transform_data mem base input rows cols (base + 2 * (col * (rows / 8) + byteRow) + 1)
        = HANOVER_FRAME_ASCII_LBYTE (load input (byteRow * cols + col)) := by
  have hk : col * (rows / 8) + byteRow < rows / 8 * cols := by
    have h1 : col * (rows / 8) + rows / 8 ≤ cols * (rows / 8) := by
      have := Nat.mul_le_mul_right (rows / 8) (Nat.succ_le_of_lt hcol)
      rw [Nat.succ_mul] at this
      exact this
    rw [Nat.mul_comm (rows / 8) cols]
    omega
  have hmod : (col * (rows / 8) + byteRow) % (rows / 8) = byteRow := by
    rw [Nat.add_comm, Nat.add_mul_mod_self_right, Nat.mod_eq_of_lt hrow]
  have hdiv : (col * (rows / 8) + byteRow) / (rows / 8) = col := by
    have hR : 0 < rows / 8 := by omega
    rw [Nat.add_comm, Nat.add_mul_div_right _ _ hR, Nat.div_eq_of_lt hrow, Nat.zero_add]
  rw [transform_data_eq mem base input rows cols hN]
  unfold transform_written
  constructor
  · have hq : (base + 2 * (col * (rows / 8) + byteRow) - base) / 2
        = col * (rows / 8) + byteRow := by omega
    rw [if_pos (by omega), if_pos (by omega), hq, hmod, hdiv]
  · have hq : (base + 2 * (col * (rows / 8) + byteRow) + 1 - base) / 2
        = col * (rows / 8) + byteRow := by omega
    rw [if_pos (by omega), if_neg (by omega), hq, hmod, hdiv]

/-- C2: for `rows` a multiple of 8, `(rows/8)*cols ≤ 65535` and a bitmap of
`(rows/8)*cols` bytes, `transform_data` writes column-outer, byte-row-inner:
output cell `2*(col*(rows/8) + byteRow)` holds the uppercase hex digit of the
high nibble of `input[byteRow*cols + col]` and the next cell that of its low
nibble. -/
theorem transform_data_column_major (mem : Nat → Nat) (ascii_bytes : Nat) (input : List Nat)
    (rows cols : Nat) (_h8 : rows % 8 = 0) (hN : rows / 8 * cols ≤ 65535)
    (_hlen : input.length = rows / 8 * cols) (hbytes : ∀ b ∈ input, b < 256)
    (col byteRow : Nat) (hcol : col < cols) (hrow : byteRow < rows / 8) :
    transform_data mem ascii_bytes (ofList input) rows cols
        (ascii_bytes + 2 * (col * (rows / 8) + byteRow))
      = hexHigh (input.getD (byteRow * cols + col) 0) ∧
    transform_data mem ascii_bytes (ofList input) rows cols
        (ascii_bytes + 2 * (col * (rows / 8) + byteRow) + 1)
      = hexLow (input.getD (byteRow * cols + col) 0) := by
  have h := transform_data_cell mem ascii_bytes (ofList input) rows cols hN col byteRow hcol hrow
  rw [load_ofList input hbytes] at h
  rw [h.1, h.2, HBYTE_eq_hexHigh _ (getD_lt_256 input hbytes _), LBYTE_eq_hexLow]
  exact ⟨rfl, rfl⟩

/-- Witness for C2: a 16 x 2 bitmap `[0x12, 0xAB, 0x34, 0xCD]`, column 1, byte-row 1:
output cells 6 and 7 hold `'C'` and `'D'`. -/
theorem transform_data_column_major_witness :
    transform_data (fun _ => 0) 0 (ofList [0x12, 0xAB, 0x34, 0xCD]) 16 2 (0 + 2 * (1 * (16 / 8) + 1))
      = hexHigh ([0x12, 0xAB, 0x34, 0xCD].getD (1 * 2 + 1) 0) ∧
    transform_data (fun _ => 0) 0 (ofList [0x12, 0xAB, 0x34, 0xCD]) 16 2
        (0 + 2 * (1 * (16 / 8) + 1) + 1)
      = hexLow ([0x12, 0xAB, 0x34, 0xCD].getD (1 * 2 + 1) 0) :=
  transform_data_column_major (fun _ => 0) 0 [0x12, 0xAB, 0x34, 0xCD] 16 2 (by decide) (by decide)
    (by decide) (by decide) 1 1 (by decide) (by decide)

/-! ## The checksum -/

theorem bytes_length (m : Nat → Nat) (n : Nat) : (bytes m n).length = n := by
  simp [bytes]

theorem bytes_succ (m : Nat → Nat) (n : Nat) : bytes m (n + 1) = bytes m n ++ [load m n] := by
  simp [bytes, List.range_succ]

theorem bytes_ofList (d : List Nat) (hd : ∀ b ∈ d, b < 256) : bytes (ofList d) d.length = d := by
  apply List.ext_getElem
  · simp [bytes]
  · intro i h1 h2
    simp only [bytes, List.getElem_map, List.getElem_range]
    rw [load_ofList d hd, List.getD_eq_getElem _ _ h2]

theorem bytes_congr (m m2 : Nat → Nat) (n : Nat) (h : ∀ i, i < n → load m i = load m2 i) :
    bytes m n = bytes m2 n := by
  unfold bytes
  apply List.map_congr_left
  intro i hi
  exact h i (List.mem_range.mp hi)

/-- The accumulation loop of `calc_chksum` is the byte sum modulo 65536. -/
theorem chksum_loop_eq (data : Nat → Nat) (n : Nat) :
    for_upto n (fun i sum => (sum + load data i) % 65536) 0 = (bytes data n).sum % 65536 := by
  induction n with
  | zero => rfl
  | succ n ih =>
    simp only [for_upto]
    rw [ih, bytes_succ, List.sum_append]
    simp only [List.sum_cons, List.sum_nil]
    omega

theorem xor_ff (s : Nat) (h : s < 256) : s ^^^ 0xff = 255 - s := by
  interval_cases s <;> rfl

/-- Closed form of `calc_chksum` in terms of the byte sum `S` of its input. -/
theorem calc_chksum_eq (data : Nat → Nat) (n : Nat) :
    calc_chksum data n = 256 - ((bytes data n).sum % 65536 + 65536 - 2) % 65536 % 256 := by
  unfold calc_chksum HANOVER_FRAME_START
  simp only
  rw [chksum_loop_eq, and_ff_eq, xor_ff _ (Nat.mod_lt _ (by decide))]
  omega

theorem calc_chksum_congr (m m2 : Nat → Nat) (n : Nat) (h : ∀ i, i < n → load m i = load m2 i) :
    calc_chksum m n = calc_chksum m2 n := by
  rw [calc_chksum_eq, calc_chksum_eq, bytes_congr m m2 n h]

/-- C3: for a byte sequence `d` of length 1..65535, `calc_chksum d` plus
(the byte sum of `d` minus the start marker 0x02) is 0 modulo 256, i.e. the
checksum is the two's-complement negation of `sum - 2` on 8 bits. -/
theorem calc_chksum_negates (d : List Nat) (hd : ∀ b ∈ d, b < 256) (_h1 : 1 ≤ d.length)
    (_h2 : d.length ≤ 65535) :
    ((calc_chksum (ofList d) d.length : Int) + ((d.sum : Int) - 2)) % 256 = 0 := by
  rw [calc_chksum_eq, bytes_ofList d hd]
  omega

/-- Witness for C3: the sequence `[0x02, 0x31, 0x31]`. -/
theorem calc_chksum_negates_witness :
    ((calc_chksum (ofList [0x02, 0x31, 0x31]) [0x02, 0x31, 0x31].length : Int)
      + ((([0x02, 0x31, 0x31] : List Nat).sum : Int) - 2)) % 256 = 0 :=
  calc_chksum_negates [0x02, 0x31, 0x31] (by decide) (by decide) (by decide)

/-! ## The frame encoder -/

theorem store_eq (m : Nat → Nat) (i v : Nat) : store m i v i = v % 256 := by
  simp [store]

theorem store_ne (m : Nat → Nat) (i v p : Nat) (h : p ≠ i) : store m i v p = m p := by
  simp [store, h]

theorem bytes_add (m : Nat → Nat) (a b : Nat) :
    bytes m (a + b) = bytes m a ++ bytes (fun i => m (a + i)) b := by
  induction b with
  | zero => simp [bytes]
  | succ b ih =>
    rw [← Nat.add_assoc, bytes_succ, ih, bytes_succ, List.append_assoc]
    rfl

theorem bytes_lt_256 (m : Nat → Nat) (n : Nat) : ∀ b ∈ bytes m n, b < 256 := by
  intro b hb
  simp only [bytes, List.mem_map] at hb
  obtain ⟨i, _, rfl⟩ := hb
  unfold load
  omega

/-- The checksum only depends on the `n_data` bytes it reads. -/
theorem calc_chksum_bytes (m : Nat → Nat) (n : Nat) :
    calc_chksum m n = calc_chksum (ofList (bytes m n)) (bytes m n).length := by
  rw [calc_chksum_eq, calc_chksum_eq, bytes_ofList _ (bytes_lt_256 m n)]

theorem div8_mul (rows cols : Nat) (h8 : rows % 8 = 0) : rows / 8 * cols = rows * cols / 8 := by
  have h : rows = 8 * (rows / 8) := by omega
  conv => rhs; rw [h, Nat.mul_assoc, Nat.mul_div_cancel_left _ (by decide : 0 < 8)]

/-- The data region: the cells `transform_data` writes at offset `base` do not
depend on the previous content of the block. -/
theorem transform_region (mem : Nat → Nat) (base : Nat) (input : Nat → Nat) (rows cols : Nat)
    (hN : rows / 8 * cols ≤ 65535) :
    bytes (fun i => transform_data mem base input rows cols (base + i)) (2 * (rows / 8 * cols))
      = transform_output input rows cols := by
  unfold transform_output
  apply bytes_congr
  intro i hi
  unfold load
  rw [transform_data_eq _ _ _ _ _ hN, transform_data_eq _ _ _ _ _ hN]
  have h1 : base ≤ base + i ∧ base + i < base + 2 * (rows / 8 * cols) := by omega
  simp only [transform_written, h1, hi, and_self, true_and, if_true, Nat.add_sub_cancel_left,
    Nat.zero_add, Nat.sub_zero, Nat.zero_le]

theorem transform_outside (mem : Nat → Nat) (base : Nat) (input : Nat → Nat) (rows cols : Nat)
    (hN : rows / 8 * cols ≤ 65535) (p : Nat) (hp : p < base ∨ base + 2 * (rows / 8 * cols) ≤ p) :
    transform_data mem base input rows cols p = mem p := by
  rw [transform_data_eq _ _ _ _ _ hN]
  unfold transform_written
  rw [if_neg (by omega)]

theorem hexHigh_lt (b : Nat) (h : b < 256) : hexHigh b < 256 := by
  rw [← HBYTE_eq_hexHigh b h]
  exact HBYTE_lt b

theorem hexLow_lt (b : Nat) : hexLow b < 256 := by
  rw [← LBYTE_eq_hexLow b]
  exact LBYTE_lt b

/-- The block after the end marker is stored holds the frame body. -/
theorem frame_body_bytes (m5 matrix : Nat → Nat) (rows cols addr : Nat) (h8 : rows % 8 = 0)
    (hlen : 8 + 2 * (rows * cols / 8) ≤ 65535) (haddr : addr ≤ 9)
    (h0 : m5 0 = 0x02) (h1 : m5 1 = 0x31) (h2 : m5 2 = 0x30 + addr)
    (h3 : m5 3 = hexHigh (rows * cols / 8 % 256)) (h4 : m5 4 = hexLow (rows * cols / 8 % 256)) :
    bytes (store (transform_data m5 5 matrix rows cols) (5 + 2 * (rows * cols / 8)) 0x03)
        (5 + 2 * (rows * cols / 8) + 1)
      = frame_body matrix rows cols addr := by
  have hR := div8_mul rows cols h8
  have hN : rows / 8 * cols ≤ 65535 := by omega
  have hout : ∀ p, p < 5 →
      store (transform_data m5 5 matrix rows cols) (5 + 2 * (rows * cols / 8)) 0x03 p = m5 p := by
    intro p hp
    rw [store_ne _ _ _ _ (by omega), transform_outside _ _ _ _ _ hN _ (Or.inl hp)]
  have hH := hexHigh_lt (rows * cols / 8 % 256) (Nat.mod_lt _ (by decide))
  have hL := hexLow_lt (rows * cols / 8 % 256)
  rw [bytes_add, bytes_add]
  unfold frame_body
  congr 1
  · congr 1
    · show [load _ 0, load _ 1, load _ 2, load _ 3, load _ 4] = _
      unfold load
      rw [hout 0 (by omega), hout 1 (by omega), hout 2 (by omega), hout 3 (by omega),
        hout 4 (by omega), h0, h1, h2, h3, h4, Nat.mod_eq_of_lt hH, Nat.mod_eq_of_lt hL,
        Nat.mod_eq_of_lt (by omega : 0x30 + addr < 256)]
    · rw [← transform_region m5 5 matrix rows cols hN, hR]
      apply bytes_congr
      intro i hi
      unfold load
      simp only
      rw [store_ne _ _ _ _ (by omega)]
  · show [load _ 0] = _
    unfold load
    simp only [Nat.add_zero]
    rw [store_eq]

/-- Storing the two checksum digits behind `n` bytes. -/
theorem frame_tail_bytes (m : Nat → Nat) (n h l : Nat) :
    bytes (store (store m n h) (n + 1) l) (n + 1 + 1) = bytes m n ++ [h % 256, l % 256] := by
  rw [bytes_succ, bytes_succ, List.append_assoc]
  congr 1
  · apply bytes_congr
    intro i hi
    unfold load
    rw [store_ne _ _ _ _ (by omega), store_ne _ _ _ _ (by omega)]
  · unfold load
    rw [store_ne _ _ _ _ (by omega), store_eq, store_eq]
    simp

/-- Appending the checksum digits to a block that holds the frame body gives
the complete frame. -/
theorem frame_expected_of_body (m matrix : Nat → Nat) (rows cols addr n : Nat)
    (hbody : bytes m n = frame_body matrix rows cols addr) :
    bytes (store (store m n (HANOVER_FRAME_ASCII_HBYTE (calc_chksum m n &&& 0xff))) (n + 1)
        (HANOVER_FRAME_ASCII_LBYTE (calc_chksum m n &&& 0xff))) (n + 1 + 1)
      = frame_expected matrix rows cols addr := by
  have hc : frame_chksum matrix rows cols addr = calc_chksum m n % 256 := by
    unfold frame_chksum
    rw [← hbody, ← calc_chksum_bytes]
  rw [frame_tail_bytes, hbody]
  unfold frame_expected
  rw [hc, and_ff_eq, HBYTE_eq_hexHigh _ (Nat.mod_lt _ (by decide)), LBYTE_eq_hexLow,
    Nat.mod_eq_of_lt (hexHigh_lt _ (Nat.mod_lt _ (by decide))), Nat.mod_eq_of_lt (hexLow_lt _)]

/-- What `matrix_to_raw` returns when the frame length fits 16 bits. -/
theorem matrix_to_raw_spec (junk matrix : Nat → Nat) (rows cols addr : Nat) (h8 : rows % 8 = 0)
    (hlen : 8 + 2 * (rows * cols / 8) ≤ 65535) (haddr : addr ≤ 9) :
    ∃ frame, matrix_to_raw (some junk) matrix rows cols addr
        = some (frame, 8 + 2 * (rows * cols / 8)) ∧
      bytes frame (8 + 2 * (rows * cols / 8)) = frame_expected matrix rows cols addr := by
  have hres : rows * cols / 8 % 65536 = rows * cols / 8 := Nat.mod_eq_of_lt (by omega)
  have hl : (1 + 2 + 2 + rows * cols / 8 * 2 + 1 + 2) % 65536 = 5 + 2 * (rows * cols / 8) + 1 + 2 := by
    omega
  have e8 : 8 + 2 * (rows * cols / 8) = 5 + 2 * (rows * cols / 8) + 1 + 2 := by omega
  unfold matrix_to_raw
  simp only [hres, hl, e8, Nat.add_sub_cancel]
  refine ⟨_, rfl, ?_⟩
  have hbody := frame_body_bytes
    (store (store (store (store (store junk 0 HANOVER_FRAME_START) 1 HANOVER_FRAME_ADDR1) 2
      (HANOVER_FRAME_ADDR2 addr)) 3 (HANOVER_FRAME_ASCII_HBYTE (rows * cols / 8 &&& 0xff))) 4
      (HANOVER_FRAME_ASCII_LBYTE (rows * cols / 8 &&& 0xff)))
    matrix rows cols addr h8 hlen haddr
    (by simp [store, HANOVER_FRAME_START])
    (by simp [store, HANOVER_FRAME_ADDR1])
    (by simp [store, HANOVER_FRAME_ADDR2]; omega)
    (by
      rw [store_ne _ _ _ _ (by decide), store_eq, and_ff_eq,
        HBYTE_eq_hexHigh _ (Nat.mod_lt _ (by decide)),
        Nat.mod_eq_of_lt (hexHigh_lt _ (Nat.mod_lt _ (by decide)))])
    (by rw [store_eq, and_ff_eq, LBYTE_eq_hexLow, Nat.mod_eq_of_lt (hexLow_lt _)])
  have i1 : 5 + 2 * (rows * cols / 8) + 1 + 2 - 1 - 2 = 5 + 2 * (rows * cols / 8) := by omega
  have i2 : 5 + 2 * (rows * cols / 8) + 1 + 2 - 1 = 5 + 2 * (rows * cols / 8) + 1 + 1 := by omega
  rw [i1, i2]
  change bytes _ _ = frame_body matrix rows cols addr at hbody
  exact frame_expected_of_body _ matrix rows cols addr _ hbody

theorem transform_output_length (matrix : Nat → Nat) (rows cols : Nat) :
    (transform_output matrix rows cols).length = 2 * (rows / 8 * cols) := by
  unfold transform_output
  rw [bytes_length]

/-- C1: for `rows` a multiple of 8, `8 + 2*((rows*cols)/8) ≤ 65535` and an
address `0..9`, `matrix_to_raw` returns a block of `8 + 2*bc` bytes
(`bc = (rows*cols)/8`) that reads
`[0x02, 0x31, 0x30+addr, H(bc & 0xFF), L(bc & 0xFF)] ++ transform_data(bitmap) ++ [0x03, H(c), L(c)]`
(this is `frame_expected`), `c` being the low 8 bits of `calc_chksum` over the
bytes from the start marker through the end marker; whatever the fresh block
held before, the data region is exactly the `2*bc` bytes of the transform. -/
theorem matrix_to_raw_frame (junk matrix : Nat → Nat) (rows cols addr : Nat)
    (h8 : rows % 8 = 0) (hlen : 8 + 2 * (rows * cols / 8) ≤ 65535) (haddr : addr ≤ 9) :
    ∃ frame, matrix_to_raw (some junk) matrix rows cols addr
        = some (frame, 8 + 2 * (rows * cols / 8)) ∧
      bytes frame (8 + 2 * (rows * cols / 8))
        = [0x02, 0x31, 0x30 + addr, hexHigh (rows * cols / 8 % 256),
            hexLow (rows * cols / 8 % 256)]
          ++ transform_output matrix rows cols
          ++ [0x03, hexHigh (frame_chksum matrix rows cols addr),
            hexLow (frame_chksum matrix rows cols addr)] ∧
      (transform_output matrix rows cols).length = 2 * (rows * cols / 8) := by
  obtain ⟨frame, hret, hbytes⟩ := matrix_to_raw_spec junk matrix rows cols addr h8 hlen haddr
  refine ⟨frame, hret, ?_, ?_⟩
  · rw [hbytes]
    unfold frame_expected frame_body
    simp only [List.append_assoc, List.cons_append, List.nil_append]
  · rw [transform_output_length, div8_mul rows cols h8]

/-- Witness for C1: a 16 x 2 bitmap, address 1, a fresh block full of 0x07. -/
theorem matrix_to_raw_frame_witness :
    ∃ frame, matrix_to_raw (some (fun _ => 7)) (ofList [0x12, 0xAB, 0x34, 0xCD]) 16 2 1
        = some (frame, 8 + 2 * (16 * 2 / 8)) ∧
      bytes frame (8 + 2 * (16 * 2 / 8))
        = [0x02, 0x31, 0x30 + 1, hexHigh (16 * 2 / 8 % 256), hexLow (16 * 2 / 8 % 256)]
          ++ transform_output (ofList [0x12, 0xAB, 0x34, 0xCD]) 16 2
          ++ [0x03, hexHigh (frame_chksum (ofList [0x12, 0xAB, 0x34, 0xCD]) 16 2 1),
            hexLow (frame_chksum (ofList [0x12, 0xAB, 0x34, 0xCD]) 16 2 1)] ∧
      (transform_output (ofList [0x12, 0xAB, 0x34, 0xCD]) 16 2).length = 2 * (16 * 2 / 8) :=
  matrix_to_raw_frame (fun _ => 7) (ofList [0x12, 0xAB, 0x34, 0xCD]) 16 2 1 (by decide)
    (by decide) (by decide)

theorem hexValue_hexDigit (d : Nat) (h : d < 16) : hexValue (hexDigit d) = d := by
  interval_cases d <;> rfl

theorem hexByte_hex (c : Nat) (h : c < 256) : hexByte (hexHigh c) (hexLow c) = c := by
  unfold hexByte hexHigh hexLow
  rw [hexValue_hexDigit _ (by omega), hexValue_hexDigit _ (by omega)]
  omega

theorem frame_body_length (matrix : Nat → Nat) (rows cols addr : Nat) :
    (frame_body matrix rows cols addr).length = 6 + 2 * (rows / 8 * cols) := by
  unfold frame_body
  simp only [List.length_append, List.length_cons, List.length_nil, transform_output_length]
  omega

theorem frame_body_sum (matrix : Nat → Nat) (rows cols addr : Nat) :
    (frame_body matrix rows cols addr).sum = 2 + (frame_body matrix rows cols addr).tail.sum := by
  unfold frame_body
  simp only [List.cons_append, List.tail_cons, List.sum_cons]

theorem frame_body_lt_256 (matrix : Nat → Nat) (rows cols addr : Nat) (haddr : addr ≤ 9) :
    ∀ b ∈ frame_body matrix rows cols addr, b < 256 := by
  intro b hb
  unfold frame_body at hb
  simp only [List.mem_append, List.mem_cons, List.mem_singleton, List.not_mem_nil, or_false]
    at hb
  rcases hb with (((h | h | h | h | h) | h) | h)
  · omega
  · omega
  · omega
  · rw [h]; exact hexHigh_lt _ (Nat.mod_lt _ (by decide))
  · rw [h]; exact hexLow_lt _
  · exact bytes_lt_256 _ _ b h
  · omega

/-- The checksum of a frame body balances the bytes behind the start marker. -/
theorem frame_chksum_balances (matrix : Nat → Nat) (rows cols addr : Nat) (haddr : addr ≤ 9) :
    ((frame_body matrix rows cols addr).tail.sum + frame_chksum matrix rows cols addr) % 256 = 0
      ∧ frame_chksum matrix rows cols addr < 256 := by
  have hs := frame_body_sum matrix rows cols addr
  unfold frame_chksum
  rw [calc_chksum_eq, bytes_ofList _ (frame_body_lt_256 matrix rows cols addr haddr), hs]
  omega

theorem isHexChar_hexDigit (d : Nat) (h : d < 16) : isHexChar (hexDigit d) = true := by
  interval_cases d <;> rfl

/-- C4: every frame produced by `matrix_to_raw` (rows a multiple of 8, frame
length at most 65535, address 0..9) balances: it starts with the start marker
0x02, has the end marker 0x03 three bytes before its end, its two trailing
bytes are ASCII-hex characters (`'0'`-`'9'`, `'A'`-`'F'`), and the sum of the
bytes behind the start marker up to and including the end marker, plus the byte
the two trailing hex characters decode to, is 0 modulo 256. -/
theorem frame_balances (junk matrix : Nat → Nat) (rows cols addr : Nat)
    (h8 : rows % 8 = 0) (hlen : 8 + 2 * (rows * cols / 8) ≤ 65535) (haddr : addr ≤ 9) :
    ∃ frame, matrix_to_raw (some junk) matrix rows cols addr
        = some (frame, 8 + 2 * (rows * cols / 8)) ∧
      (bytes frame (8 + 2 * (rows * cols / 8))).getD 0 0 = 0x02 ∧
      (bytes frame (8 + 2 * (rows * cols / 8))).getD (5 + 2 * (rows * cols / 8)) 0 = 0x03 ∧
      isHexChar ((bytes frame (8 + 2 * (rows * cols / 8))).getD (6 + 2 * (rows * cols / 8)) 0)
        = true ∧
      isHexChar ((bytes frame (8 + 2 * (rows * cols / 8))).getD (7 + 2 * (rows * cols / 8)) 0)
        = true ∧
      ((((bytes frame (8 + 2 * (rows * cols / 8))).drop 1).take (5 + 2 * (rows * cols / 8))).sum
        + hexByte ((bytes frame (8 + 2 * (rows * cols / 8))).getD (6 + 2 * (rows * cols / 8)) 0)
            ((bytes frame (8 + 2 * (rows * cols / 8))).getD (7 + 2 * (rows * cols / 8)) 0))
        % 256 = 0 := by
  obtain ⟨frame, hret, hbytes⟩ := matrix_to_raw_spec junk matrix rows cols addr h8 hlen haddr
  refine ⟨frame, hret, ?_⟩
  have hlenB := frame_body_length matrix rows cols addr
  rw [div8_mul rows cols h8] at hlenB
  obtain ⟨hbal, hc⟩ := frame_chksum_balances matrix rows cols addr haddr
  have hne : frame_body matrix rows cols addr
      = 0x02 :: (frame_body matrix rows cols addr).tail := by
    unfold frame_body
    rfl
  have htl : (frame_body matrix rows cols addr).tail.length = 5 + 2 * (rows * cols / 8) := by
    rw [List.length_tail, hlenB]
    omega
  have hend : (frame_body matrix rows cols addr).getD (5 + 2 * (rows * cols / 8)) 0 = 0x03 := by
    have hpl : ([0x02, 0x31, 0x30 + addr, hexHigh (rows * cols / 8 % 256),
        hexLow (rows * cols / 8 % 256)] ++ transform_output matrix rows cols).length
        = 5 + 2 * (rows * cols / 8) := by
      rw [List.length_append, transform_output_length, div8_mul rows cols h8]
      rfl
    unfold frame_body
    rw [List.getD_append_right _ _ _ _ (by omega), hpl, Nat.sub_self]
    rfl
  rw [hbytes]
  unfold frame_expected
  refine ⟨?_, ?_, ?_, ?_, ?_⟩
  · rw [List.getD_append _ _ _ _ (by omega), hne]
    rfl
  · rw [List.getD_append _ _ _ _ (by omega)]
    exact hend
  · rw [List.getD_append_right _ _ _ _ (by omega), hlenB, Nat.sub_self]
    exact isHexChar_hexDigit _ (by omega)
  · rw [List.getD_append_right _ _ _ _ (by omega), hlenB]
    have e1 : 7 + 2 * (rows * cols / 8) - (6 + 2 * (rows * cols / 8)) = 1 := by omega
    rw [e1]
    exact isHexChar_hexDigit _ (Nat.mod_lt _ (by decide))
  · rw [List.getD_append_right _ _ _ _ (by omega), List.getD_append_right _ _ _ _ (by omega),
      hlenB]
    have e0 : 6 + 2 * (rows * cols / 8) - (6 + 2 * (rows * cols / 8)) = 0 := by omega
    have e1 : 7 + 2 * (rows * cols / 8) - (6 + 2 * (rows * cols / 8)) = 1 := by omega
    rw [e0, e1]
    simp only [List.getD_cons_zero, List.getD_cons_succ]
    rw [hexByte_hex _ hc]
    rw [hne, List.cons_append, List.drop_succ_cons, List.drop_zero, List.take_left' htl]
    exact hbal

/-- Witness for C4: the frame of a 16 x 2 bitmap at address 1. -/
theorem frame_balances_witness :
    ∃ frame, matrix_to_raw (some (fun _ => 7)) (ofList [0x12, 0xAB, 0x34, 0xCD]) 16 2 1
        = some (frame, 8 + 2 * (16 * 2 / 8)) ∧
      (bytes frame (8 + 2 * (16 * 2 / 8))).getD 0 0 = 0x02 ∧
      (bytes frame (8 + 2 * (16 * 2 / 8))).getD (5 + 2 * (16 * 2 / 8)) 0 = 0x03 ∧
      isHexChar ((bytes frame (8 + 2 * (16 * 2 / 8))).getD (6 + 2 * (16 * 2 / 8)) 0) = true ∧
      isHexChar ((bytes frame (8 + 2 * (16 * 2 / 8))).getD (7 + 2 * (16 * 2 / 8)) 0) = true ∧
      ((((bytes frame (8 + 2 * (16 * 2 / 8))).drop 1).take (5 + 2 * (16 * 2 / 8))).sum
        + hexByte ((bytes frame (8 + 2 * (16 * 2 / 8))).getD (6 + 2 * (16 * 2 / 8)) 0)
            ((bytes frame (8 + 2 * (16 * 2 / 8))).getD (7 + 2 * (16 * 2 / 8)) 0))
        % 256 = 0 :=
  frame_balances (fun _ => 7) (ofList [0x12, 0xAB, 0x34, 0xCD]) 16 2 1 (by decide) (by decide)
    (by decide)

/-! ## Text layout: the state after one pass -/

@[simp] theorem next_processed (s : Layout) (x : Option (Nat × Nat)) :
    (s.next x).processed_chars = (s.processed_chars + 1) % 65536 := rfl
@[simp] theorem next_cells (s : Layout) (x : Option (Nat × Nat)) :
    (s.next x).cells = s.cells ++ [x] := rfl
@[simp] theorem next_returned (s : Layout) (x : Option (Nat × Nat)) :
    (s.next x).returned = s.returned := rfl
@[simp] theorem next_char_row (s : Layout) (x : Option (Nat × Nat)) :
    (s.next x).char_row = s.char_row := rfl
@[simp] theorem next_char_col (s : Layout) (x : Option (Nat × Nat)) :
    (s.next x).char_col = s.char_col := rfl
@[simp] theorem next_display_area (s : Layout) (x : Option (Nat × Nat)) :
    (s.next x).display_area = s.display_area := rfl

@[simp] theorem advance_processed (s : Layout) (cols : Nat) :
    (s.advance cols).processed_chars = s.processed_chars := by
  unfold Layout.advance; split <;> rfl
@[simp] theorem advance_cells (s : Layout) (cols : Nat) :
    (s.advance cols).cells = s.cells := by
  unfold Layout.advance; split <;> rfl
@[simp] theorem advance_returned (s : Layout) (cols : Nat) :
    (s.advance cols).returned = s.returned := by
  unfold Layout.advance; split <;> rfl
@[simp] theorem advance_display_area (s : Layout) (cols : Nat) :
    (s.advance cols).display_area = s.display_area := by
  unfold Layout.advance; split <;> rfl

/-! ## Text layout: the consumed-character count -/

/-- How many characters the loop consumes from state `s`: the counter advances
by `j ≤ length`, one record is appended per character, and (for a string
without an embedded NUL) either the whole string is consumed or the loop
returned behind a space that is followed by a character other than a space. -/
theorem loop_consumed (font : Nat → Nat → Nat) (rows cols : Nat) (msg : List Nat) :
    ∀ s : Layout, s.processed_chars < 65536 → ∃ j, j ≤ msg.length ∧
      (sprintf_display_loop font rows cols msg s).processed_chars
        = (s.processed_chars + j) % 65536 ∧
      (sprintf_display_loop font rows cols msg s).cells.length = s.cells.length + j ∧
      ((∀ c ∈ msg, c ≠ 0) →
        (msg ≠ [] → 1 ≤ j) ∧
        (((sprintf_display_loop font rows cols msg s).returned = s.returned ∧ j = msg.length) ∨
         ((sprintf_display_loop font rows cols msg s).returned = true ∧ j < msg.length ∧
            msg.getD (j - 1) 0 = 32 ∧ msg.getD j 0 ≠ 32 ∧ msg.getD j 0 ≠ 0))) := by
  induction msg with
  | nil =>
    intro s hs
    exact ⟨0, Nat.le_refl _, by simp [sprintf_display_loop]; omega, by simp [sprintf_display_loop],
      fun _ => ⟨fun h => absurd rfl h, Or.inl ⟨by simp [sprintf_display_loop], rfl⟩⟩⟩
  | cons c rest ih =>
    intro s hs
    -- every branch that continues the loop is handled the same way
    have cont : ∀ s2 : Layout, s2.processed_chars = (s.processed_chars + 1) % 65536 →
        s2.cells.length = s.cells.length + 1 → s2.returned = s.returned →
        ∃ j, j ≤ (c :: rest).length ∧
          (sprintf_display_loop font rows cols rest s2).processed_chars
            = (s.processed_chars + j) % 65536 ∧
          (sprintf_display_loop font rows cols rest s2).cells.length = s.cells.length + j ∧
          ((∀ x ∈ c :: rest, x ≠ 0) →
            ((c :: rest) ≠ [] → 1 ≤ j) ∧
            (((sprintf_display_loop font rows cols rest s2).returned = s.returned ∧
                j = (c :: rest).length) ∨
             ((sprintf_display_loop font rows cols rest s2).returned = true ∧
                j < (c :: rest).length ∧
                (c :: rest).getD (j - 1) 0 = 32 ∧ (c :: rest).getD j 0 ≠ 32 ∧
                (c :: rest).getD j 0 ≠ 0))) := by
      intro s2 hp hcl hr
      obtain ⟨j, hj, h1, h2, h3⟩ := ih s2 (by rw [hp]; omega)
      refine ⟨j + 1, by simp only [List.length_cons]; omega, by rw [h1, hp]; omega,
        by rw [h2, hcl]; omega, ?_⟩
      intro hz
      have hz2 : ∀ x ∈ rest, x ≠ 0 := fun x hx => hz x (List.mem_cons_of_mem _ hx)
      obtain ⟨h4, h5⟩ := h3 hz2
      refine ⟨fun _ => by omega, ?_⟩
      rcases h5 with ⟨h6, h7⟩ | ⟨h6, h7, h8, h9, h10⟩
      · exact Or.inl ⟨by rw [h6, hr], by simp only [List.length_cons]; omega⟩
      · have hj1 : 1 ≤ j := h4 (by intro hnil; rw [hnil] at h7; simp at h7)
        refine Or.inr ⟨h6, by simp only [List.length_cons]; omega, ?_, ?_, ?_⟩
        · obtain ⟨j2, rfl⟩ : ∃ j2, j = j2 + 1 := ⟨j - 1, by omega⟩
          simpa using h8
        · simpa using h9
        · simpa using h10
    rw [sprintf_display_loop]
    by_cases hc0 : c = 0
    · rw [if_pos hc0]
      exact ⟨0, Nat.zero_le _, by simp; omega, by simp,
        fun hz => absurd hc0 (hz c (List.mem_cons_self _ _))⟩
    rw [if_neg hc0]
    split
    · exact cont _ (by simp) (by simp) (by simp)
    · simp only
      split
      · split
        · exact cont _ (by simp) (by simp) (by simp)
        · split
          · split
            · exact cont _ (by simp [Layout.next]) (by simp [Layout.next]) (by simp [Layout.next])
            · rename_i hsp _ _ _
              refine ⟨1, by simp, by simp, by simp, fun _ => ⟨fun _ => Nat.le_refl _, Or.inr ?_⟩⟩
              obtain ⟨hc32, hh0, hh32⟩ := hsp
              cases rest with
              | nil => simp at hh0
              | cons d rest2 =>
                simp only [List.headD_cons] at hh0 hh32
                exact ⟨rfl, by simp, by simpa using hc32, by simpa using hh32,
                  by simpa using hh0⟩
          · exact cont _ (by simp) (by simp) (by simp)
      · exact cont _ (by simp) (by simp) (by simp)

/-- The count `sprintf_display` returns, for a string without an embedded NUL. -/
theorem sprintf_display_consumed (font : Nat → Nat → Nat) (msg : List Nat) (area : Nat → Nat)
    (rows cols : Nat) (hz : ∀ c ∈ msg, c ≠ 0) :
    ∃ j, j ≤ msg.length ∧
      (sprintf_display font msg area rows cols).processed_chars = j % 65536 ∧
      (msg ≠ [] → 1 ≤ j) ∧
      (((sprintf_display font msg area rows cols).returned = false ∧ j = msg.length) ∨
       ((sprintf_display font msg area rows cols).returned = true ∧ j < msg.length ∧
          msg.getD (j - 1) 0 = 32 ∧ msg.getD j 0 ≠ 32 ∧ msg.getD j 0 ≠ 0)) := by
  obtain ⟨j, h1, h2, _, h4⟩ := loop_consumed font rows cols msg
    { display_area := area, char_row := 0, char_col := 0, processed_chars := 0,
      cells := [], returned := false } (by show 0 < 65536; decide)
  obtain ⟨h5, h6⟩ := h4 hz
  refine ⟨j, h1, ?_, h5, h6⟩
  unfold sprintf_display
  rw [h2, Nat.zero_add]

/-- C7: for a message of length `n < 65536` and any panel, the count `k`
returned by `sprintf_display` satisfies `k ≤ n`, `k ≥ 1` when `n ≥ 1`, `k = n`
exactly when the function did not return early, and whenever `k < n` the
character `msg[k-1]` is a space and `msg[k]` is not: the remainder starts with
the first character of the word that did not fit. -/
theorem sprintf_display_count (font : Nat → Nat → Nat) (msg : List Nat) (area : Nat → Nat)
    (rows cols : Nat) (hz : ∀ c ∈ msg, c ≠ 0) (hn : msg.length < 65536) :
    (sprintf_display font msg area rows cols).processed_chars ≤ msg.length ∧
    (1 ≤ msg.length → 1 ≤ (sprintf_display font msg area rows cols).processed_chars) ∧
    ((sprintf_display font msg area rows cols).processed_chars = msg.length ↔
      (sprintf_display font msg area rows cols).returned = false) ∧
    ((sprintf_display font msg area rows cols).processed_chars < msg.length →
      msg.getD ((sprintf_display font msg area rows cols).processed_chars - 1) 0 = 32 ∧
      msg.getD ((sprintf_display font msg area rows cols).processed_chars) 0 ≠ 32 ∧
      msg.getD ((sprintf_display font msg area rows cols).processed_chars) 0 ≠ 0) := by
  obtain ⟨j, h1, h2, h3, h4⟩ := sprintf_display_consumed font msg area rows cols hz
  have hj : j % 65536 = j := Nat.mod_eq_of_lt (by omega)
  rw [h2, hj]
  refine ⟨h1, ?_, ?_, ?_⟩
  · intro hlen
    exact h3 (by intro hnil; rw [hnil] at hlen; simp at hlen)
  · rcases h4 with ⟨h5, h6⟩ | ⟨h5, h6, _⟩
    · exact ⟨fun _ => h5, fun _ => h6⟩
    · constructor
      · intro h; omega
      · intro h; rw [h5] at h; exact absurd h (by decide)
  · intro hlt
    rcases h4 with ⟨_, h6⟩ | ⟨_, _, h7, h8, h9⟩
    · omega
    · exact ⟨h7, h8, h9⟩

/-- Witness for C7: `"a bb ccc"` on the 16 x 24 panel (the count is 5). -/
theorem sprintf_display_count_witness :
    (sprintf_display (fun _ _ => 0) [97, 32, 98, 98, 32, 99, 99, 99] (fun _ => 0) 16 24).processed_chars
      ≤ [97, 32, 98, 98, 32, 99, 99, 99].length ∧
    (1 ≤ [97, 32, 98, 98, 32, 99, 99, 99].length →
      1 ≤ (sprintf_display (fun _ _ => 0) [97, 32, 98, 98, 32, 99, 99, 99] (fun _ => 0) 16
        24).processed_chars) ∧
    ((sprintf_display (fun _ _ => 0) [97, 32, 98, 98, 32, 99, 99, 99] (fun _ => 0) 16
        24).processed_chars = [97, 32, 98, 98, 32, 99, 99, 99].length ↔
      (sprintf_display (fun _ _ => 0) [97, 32, 98, 98, 32, 99, 99, 99] (fun _ => 0) 16
        24).returned = false) ∧
    ((sprintf_display (fun _ _ => 0) [97, 32, 98, 98, 32, 99, 99, 99] (fun _ => 0) 16
        24).processed_chars < [97, 32, 98, 98, 32, 99, 99, 99].length →
      [97, 32, 98, 98, 32, 99, 99, 99].getD
        ((sprintf_display (fun _ _ => 0) [97, 32, 98, 98, 32, 99, 99, 99] (fun _ => 0) 16
          24).processed_chars - 1) 0 = 32 ∧
      [97, 32, 98, 98, 32, 99, 99, 99].getD
        ((sprintf_display (fun _ _ => 0) [97, 32, 98, 98, 32, 99, 99, 99] (fun _ => 0) 16
          24).processed_chars) 0 ≠ 32 ∧
      [97, 32, 98, 98, 32, 99, 99, 99].getD
        ((sprintf_display (fun _ _ => 0) [97, 32, 98, 98, 32, 99, 99, 99] (fun _ => 0) 16
          24).processed_chars) 0 ≠ 0) :=
  sprintf_display_count (fun _ _ => 0) [97, 32, 98, 98, 32, 99, 99, 99] (fun _ => 0) 16 24
    (by decide) (by decide)

/-- C6, counterexample: on the 8 x 8 panel (one cell) the two-character message
`"ab"` is longer than the grid, yet the returned count is 2, not less than 2. -/
theorem pagination_not_reported :
    8 % 8 = 0 ∧ 0 < 8 ∧ 8 ≤ 8 ∧ 8 / 8 * (8 / 8) < [97, 98].length ∧
    ¬ ((sprintf_display (fun _ _ => 0) [97, 98] (fun _ => 0) 8 8).processed_chars
        < [97, 98].length) := by
  decide

/-- C6, amended: for a message longer than `(rows/8)*(cols/8)` characters, the
layout of its first `(rows/8)*(cols/8)` characters (the page `main` cuts off
before it calls `sprintf_display`) returns a count of at most
`(rows/8)*(cols/8)`, strictly less than the message length; on the message
itself (no embedded NUL, length below 65536) the count is strictly less than
the length exactly when `sprintf_display` took its early return. -/
theorem pagination_of_page (font : Nat → Nat → Nat) (msg : List Nat) (area : Nat → Nat)
    (rows cols : Nat) (hlong : rows / 8 * (cols / 8) < msg.length) :
    (sprintf_display font (msg.take (rows / 8 * (cols / 8))) area rows cols).processed_chars
      ≤ rows / 8 * (cols / 8) ∧
    (sprintf_display font (msg.take (rows / 8 * (cols / 8))) area rows cols).processed_chars
      < msg.length ∧
    ((∀ c ∈ msg, c ≠ 0) → msg.length < 65536 →
      ((sprintf_display font msg area rows cols).processed_chars < msg.length ↔
        (sprintf_display font msg area rows cols).returned = true)) := by
  obtain ⟨j, h1, h2, _, _⟩ := loop_consumed font rows cols (msg.take (rows / 8 * (cols / 8)))
    { display_area := area, char_row := 0, char_col := 0, processed_chars := 0,
      cells := [], returned := false } (by show 0 < 65536; decide)
  have hle : (sprintf_display font (msg.take (rows / 8 * (cols / 8))) area rows
      cols).processed_chars ≤ rows / 8 * (cols / 8) := by
    unfold sprintf_display
    rw [h2, Nat.zero_add]
    rw [List.length_take] at h1
    have := Nat.mod_le j 65536
    omega
  refine ⟨hle, by omega, ?_⟩
  intro hz hn
  obtain ⟨j, h1, h2, _, h4⟩ := sprintf_display_consumed font msg area rows cols hz
  rw [h2, Nat.mod_eq_of_lt (by omega)]
  rcases h4 with ⟨h5, h6⟩ | ⟨h5, h6, _⟩
  · rw [h5]
    constructor
    · intro h; omega
    · intro h; exact absurd h (by decide)
  · exact ⟨fun _ => h5, fun _ => h6⟩

/-- Witness for C6 (amended): 25 letters on the 16 x 96 panel. -/
theorem pagination_of_page_witness :
    (sprintf_display (fun _ _ => 0) ((List.replicate 25 97).take (16 / 8 * (96 / 8)))
        (fun _ => 0) 16 96).processed_chars ≤ 16 / 8 * (96 / 8) ∧
    (sprintf_display (fun _ _ => 0) ((List.replicate 25 97).take (16 / 8 * (96 / 8)))
        (fun _ => 0) 16 96).processed_chars < (List.replicate 25 97).length ∧
    ((sprintf_display (fun _ _ => 0) (List.replicate 25 97) (fun _ => 0) 16
        96).processed_chars < (List.replicate 25 97).length ↔
      (sprintf_display (fun _ _ => 0) (List.replicate 25 97) (fun _ => 0) 16 96).returned
        = true) :=
  ⟨(pagination_of_page (fun _ _ => 0) (List.replicate 25 97) (fun _ => 0) 16 96
      (by decide)).1,
    (pagination_of_page (fun _ _ => 0) (List.replicate 25 97) (fun _ => 0) 16 96
      (by decide)).2.1,
    (pagination_of_page (fun _ _ => 0) (List.replicate 25 97) (fun _ => 0) 16 96
      (by decide)).2.2 (by decide) (by decide)⟩

/-! ## Text layout: where glyphs are placed -/

/-- The column of every rasterized glyph is inside the cell grid. -/
theorem loop_cols_in_range (font : Nat → Nat → Nat) (rows cols : Nat) (hcols : 8 ≤ cols)
    (msg : List Nat) :
    ∀ s : Layout, s.char_col < cols / 8 →
      (∀ r c, some (r, c) ∈ s.cells → c < cols / 8) →
      ∀ r c, some (r, c) ∈ (sprintf_display_loop font rows cols msg s).cells → c < cols / 8 := by
  induction msg with
  | nil =>
    intro s _ hs r c h
    exact hs r c (by simpa [sprintf_display_loop] using h)
  | cons ch rest ih =>
    intro s hcol hs
    have hW : 0 < cols / 8 := by omega
    have hcell : ∀ r c, some (r, c) ∈ s.cells ++ [some (s.char_row, s.char_col)] →
        c < cols / 8 := by
      intro r c h
      rcases List.mem_append.mp h with h | h
      · exact hs r c h
      · simp only [List.mem_singleton, Option.some.injEq, Prod.mk.injEq] at h
        omega
    have hadv : ∀ t : Layout, t.char_col = s.char_col → (t.advance cols).char_col < cols / 8 := by
      intro t ht
      unfold Layout.advance
      split
      · rename_i h
        simp only [Int.ofNat_eq_coe] at h
        show (t.char_col + 1) % 65536 < cols / 8
        have := Nat.mod_le (t.char_col + 1) 65536
        omega
      · exact hW
    rw [sprintf_display_loop]
    split
    · exact hs
    split
    · refine ih _ (by simpa using hcol) ?_
      intro r c h
      rcases List.mem_append.mp h with h | h
      · exact hs r c h
      · simp at h
    · simp only
      split
      · split
        · exact ih _ (by simpa using hcol) (by simpa using hcell)
        · split
          · split
            · exact ih _ (by simpa [Layout.next] using hW) (by simpa [Layout.next] using hcell)
            · simpa using hcell
          · exact ih _ (by rw [next_char_col]; exact hadv _ rfl) (by simpa using hcell)
      · exact ih _ (by rw [next_char_col]; exact hadv _ rfl) (by simpa using hcell)

/-- Without a space in the string the cursor visits the cells in row-major
order, one per character, so a string that is no longer than the grid stays in
the grid. -/
theorem loop_rows_in_range (font : Nat → Nat → Nat) (rows cols : Nat) (hcols : 8 ≤ cols)
    (msg : List Nat) :
    ∀ s : Layout, (∀ ch ∈ msg, ch ≠ 32) → s.char_col < cols / 8 →
      s.char_row * (cols / 8) + s.char_col + msg.length ≤ rows / 8 * (cols / 8) →
      (∀ r c, some (r, c) ∈ s.cells → r < rows / 8) →
      ∀ r c, some (r, c) ∈ (sprintf_display_loop font rows cols msg s).cells → r < rows / 8 := by
  induction msg with
  | nil =>
    intro s _ _ _ hs r c h
    exact hs r c (by simpa [sprintf_display_loop] using h)
  | cons ch rest ih =>
    intro s hsp hcol hlin hs
    have hW : 0 < cols / 8 := by omega
    have hch : ch ≠ 32 := hsp ch (List.mem_cons_self _ _)
    have hsp2 : ∀ x ∈ rest, x ≠ 32 := fun x hx => hsp x (List.mem_cons_of_mem _ hx)
    simp only [List.length_cons] at hlin
    have hrow : s.char_row < rows / 8 := by
      have h1 : s.char_row * (cols / 8) < rows / 8 * (cols / 8) := by omega
      exact Nat.lt_of_mul_lt_mul_right h1
    have hcell : ∀ r c, some (r, c) ∈ s.cells ++ [some (s.char_row, s.char_col)] →
        r < rows / 8 := by
      intro r c h
      rcases List.mem_append.mp h with h | h
      · exact hs r c h
      · simp only [List.mem_singleton, Option.some.injEq, Prod.mk.injEq] at h
        omega
    have hadv : ∀ a : Nat → Nat,
        (Layout.advance { s with display_area := a } cols).char_col < cols / 8 ∧
        (Layout.advance { s with display_area := a } cols).char_row * (cols / 8)
          + (Layout.advance { s with display_area := a } cols).char_col + rest.length
          ≤ rows / 8 * (cols / 8) := by
      intro a
      unfold Layout.advance
      split
      · rename_i h
        simp only [Int.ofNat_eq_coe] at h
        show (s.char_col + 1) % 65536 < cols / 8 ∧
          s.char_row * (cols / 8) + (s.char_col + 1) % 65536 + rest.length ≤ rows / 8 * (cols / 8)
        have := Nat.mod_le (s.char_col + 1) 65536
        omega
      · rename_i h
        simp only [Int.ofNat_eq_coe] at h
        show 0 < cols / 8 ∧
          (s.char_row + 1) % 65536 * (cols / 8) + 0 + rest.length ≤ rows / 8 * (cols / 8)
        have h1 := Nat.mod_le (s.char_row + 1) 65536
        have h2 : (s.char_row + 1) % 65536 * (cols / 8) ≤ (s.char_row + 1) * (cols / 8) :=
          Nat.mul_le_mul_right _ h1
        rw [Nat.succ_mul] at h2
        refine ⟨hW, ?_⟩
        omega
    rw [sprintf_display_loop]
    split
    · exact hs
    split
    · rename_i h
      exact absurd h.1 hch
    · simp only
      split
      · rename_i h
        exact absurd h.1 hch
      · exact ih _ hsp2 (by rw [next_char_col]; exact (hadv _).1)
          (by rw [next_char_row, next_char_col]; exact (hadv _).2) (by simpa using hcell)

/-- C5, counterexample: on the 8 x 8 panel (one cell) the message `"ab"` has
its second glyph rasterized at cell `(1, 0)`, and `1 < rows/8` fails. -/
theorem glyph_out_of_range :
    8 % 8 = 0 ∧ 0 < 8 ∧ 8 ≤ 8 ∧
    some (1, 0) ∈ (sprintf_display (fun _ _ => 0) [97, 98] (fun _ => 0) 8 8).cells ∧
    ¬ (1 < 8 / 8) := by
  decide

/-- C5, amended: on a panel with `rows` a positive multiple of 8 and
`cols ≥ 8`, every glyph `sprintf_display` rasterizes is placed at a column
`c < cols/8`; its row satisfies `r < rows/8` for every message that contains no
space and has at most `(rows/8)*(cols/8)` characters, the bound `main` enforces
before layout. -/
theorem glyph_cells_in_range (font : Nat → Nat → Nat) (msg : List Nat) (area : Nat → Nat)
    (rows cols : Nat) (_h8 : rows % 8 = 0) (_hrows : 0 < rows) (hcols : 8 ≤ cols) :
    ∀ r c, some (r, c) ∈ (sprintf_display font msg area rows cols).cells →
      c < cols / 8 ∧
      ((∀ ch ∈ msg, ch ≠ 32) → msg.length ≤ rows / 8 * (cols / 8) → r < rows / 8) := by
  intro r c h
  unfold sprintf_display at h
  have hW : 0 < cols / 8 := by omega
  refine ⟨loop_cols_in_range font rows cols hcols msg _ hW (by simp) r c h, ?_⟩
  intro hsp hlen
  exact loop_rows_in_range font rows cols hcols msg _ hsp hW (by simpa using hlen) (by simp) r c h

/-- Witness for C5 (amended): `"hello"` on the 16 x 96 panel, the glyph of `'o'`
at cell (0,4). -/
theorem glyph_cells_in_range_witness :
    some (0, 4) ∈ (sprintf_display (fun _ _ => 0) [104, 101, 108, 108, 111] (fun _ => 0)
        16 96).cells ∧
    4 < 96 / 8 ∧ 0 < 16 / 8 :=
  ⟨by decide,
    (glyph_cells_in_range (fun _ _ => 0) [104, 101, 108, 108, 111] (fun _ => 0) 16 96
      (by decide) (by decide) (by decide) 0 4 (by decide)).1,
    (glyph_cells_in_range (fun _ _ => 0) [104, 101, 108, 108, 111] (fun _ => 0) 16 96
      (by decide) (by decide) (by decide) 0 4 (by decide)).2 (by decide) (by decide)⟩

/-! ## Text layout: leading spaces -/

theorem shift_next (s : Layout) (k : Nat) (pre : List (Option (Nat × Nat)))
    (x : Option (Nat × Nat)) : (s.shift k pre).next x = (s.next x).shift k pre := by
  simp only [Layout.shift, Layout.next, List.append_assoc, Layout.mk.injEq, and_true, true_and]
  omega

theorem shift_advance (s : Layout) (k : Nat) (pre : List (Option (Nat × Nat))) (cols : Nat) :
    (s.shift k pre).advance cols = (s.advance cols).shift k pre := by
  unfold Layout.advance
  split <;> rename_i h <;> simp only [Layout.shift] at h <;> simp only [h, if_true, if_false] <;> rfl

/-- The loop neither reads the counter nor the records: counting `k` more
characters and prepending records commutes with the loop. -/
theorem loop_shift (font : Nat → Nat → Nat) (rows cols k : Nat)
    (pre : List (Option (Nat × Nat))) (msg : List Nat) :
    ∀ s : Layout, sprintf_display_loop font rows cols msg (s.shift k pre)
      = (sprintf_display_loop font rows cols msg s).shift k pre := by
  induction msg with
  | nil => intro s; simp [sprintf_display_loop]
  | cons c rest ih =>
    intro s
    have e1 : (s.shift k pre).char_col = s.char_col := rfl
    have e2 : (s.shift k pre).char_row = s.char_row := rfl
    have e3 : (s.shift k pre).display_area = s.display_area := rfl
    simp only [sprintf_display_loop, e1, e2, e3]
    split_ifs
    · rfl
    · rw [← ih, shift_next]
    · rw [← ih, ← shift_next]
      rfl
    · rw [← ih, ← shift_next]
      rfl
    · simp only [Layout.shift, List.append_assoc, Layout.mk.injEq, and_true, true_and]
      omega
    · rw [← ih, ← shift_next, ← shift_advance]
      rfl
    · rw [← ih, ← shift_next, ← shift_advance]
      rfl

/-- Leading spaces are consumed at column 0 without any other effect than
being counted. -/
theorem loop_leading_spaces (font : Nat → Nat → Nat) (rows cols : Nat) (msg : List Nat)
    (k : Nat) : ∀ s : Layout, s.char_col = 0 → s.processed_chars < 65536 →
      sprintf_display_loop font rows cols (List.replicate k 32 ++ msg) s
        = sprintf_display_loop font rows cols msg
            { s with processed_chars := (s.processed_chars + k) % 65536,
                     cells := s.cells ++ List.replicate k none } := by
  induction k with
  | zero =>
    intro s _ hp
    simp only [List.replicate_zero, List.nil_append, List.append_nil, Nat.add_zero]
    rw [Nat.mod_eq_of_lt hp]
  | succ k ih =>
    intro s hcol hp
    rw [List.replicate_succ, List.cons_append, sprintf_display_loop, if_neg (by decide),
      if_pos ⟨rfl, hcol⟩, ih (s.next none) hcol (Nat.mod_lt _ (by decide))]
    congr 1
    simp only [Layout.next, List.append_assoc, List.singleton_append, Layout.mk.injEq, and_true,
      true_and]
    exact ⟨by omega, by rw [List.replicate_succ]⟩

/-- Layout of `k` spaces followed by `msg`, in terms of the layout of `msg`. -/
theorem sprintf_display_leading_spaces (font : Nat → Nat → Nat) (msg : List Nat)
    (area : Nat → Nat) (rows cols k : Nat) :
    sprintf_display font (List.replicate k 32 ++ msg) area rows cols
      = (sprintf_display font msg area rows cols).shift k (List.replicate k none) := by
  unfold sprintf_display
  rw [loop_leading_spaces font rows cols msg k _ rfl (by show 0 < 65536; decide), ← loop_shift]
  congr 1
  simp [Layout.shift]

/-- C9, counterexample: 65536 spaces followed by the empty string. The count
returned is 0, not 65536 plus the count returned for the empty string. -/
theorem leading_spaces_count_wraps :
    (sprintf_display (fun _ _ => 0) (List.replicate 65536 32 ++ []) (fun _ => 0) 16 96).processed_chars
      ≠ 65536 + (sprintf_display (fun _ _ => 0) [] (fun _ => 0) 16 96).processed_chars := by
  rw [sprintf_display_leading_spaces]
  decide

/-- C9, amended: for `k` spaces followed by a string `s` with
`k + length s < 65536`, on every panel and starting bitmap, the layout
rasterizes the same glyphs at the same cells as the layout of `s` alone (the
records are those of `s` behind `k` records of unrasterized characters), leaves
the same bitmap, ends in the same way, and returns `k` plus the count returned
for `s`. -/
theorem leading_spaces_suppressed (font : Nat → Nat → Nat) (s : List Nat) (area : Nat → Nat)
    (rows cols k : Nat) (hlen : k + s.length < 65536) :
    (sprintf_display font (List.replicate k 32 ++ s) area rows cols).cells
      = List.replicate k none ++ (sprintf_display font s area rows cols).cells ∧
    (sprintf_display font (List.replicate k 32 ++ s) area rows cols).display_area
      = (sprintf_display font s area rows cols).display_area ∧
    (sprintf_display font (List.replicate k 32 ++ s) area rows cols).returned
      = (sprintf_display font s area rows cols).returned ∧
    (sprintf_display font (List.replicate k 32 ++ s) area rows cols).processed_chars
      = k + (sprintf_display font s area rows cols).processed_chars := by
  rw [sprintf_display_leading_spaces]
  refine ⟨rfl, rfl, rfl, ?_⟩
  obtain ⟨j, h1, h2, _, _⟩ := loop_consumed font rows cols s
    { display_area := area, char_row := 0, char_col := 0, processed_chars := 0,
      cells := [], returned := false } (by show 0 < 65536; decide)
  show ((sprintf_display font s area rows cols).processed_chars + k) % 65536 = _
  unfold sprintf_display
  rw [h2, Nat.zero_add]
  omega

/-- Witness for C9 (amended): `"  hi"` renders `'h'` at cell (0,0) and `'i'` at
cell (0,1), as `"hi"` does. -/
theorem leading_spaces_suppressed_witness :
    ((sprintf_display (fun _ _ => 0) (List.replicate 2 32 ++ [104, 105]) (fun _ => 0) 16
        96).cells
      = List.replicate 2 none ++ (sprintf_display (fun _ _ => 0) [104, 105] (fun _ => 0) 16
        96).cells ∧
    (sprintf_display (fun _ _ => 0) (List.replicate 2 32 ++ [104, 105]) (fun _ => 0) 16
        96).display_area
      = (sprintf_display (fun _ _ => 0) [104, 105] (fun _ => 0) 16 96).display_area ∧
    (sprintf_display (fun _ _ => 0) (List.replicate 2 32 ++ [104, 105]) (fun _ => 0) 16
        96).returned
      = (sprintf_display (fun _ _ => 0) [104, 105] (fun _ => 0) 16 96).returned ∧
    (sprintf_display (fun _ _ => 0) (List.replicate 2 32 ++ [104, 105]) (fun _ => 0) 16
        96).processed_chars
      = 2 + (sprintf_display (fun _ _ => 0) [104, 105] (fun _ => 0) 16 96).processed_chars) ∧
    (sprintf_display (fun _ _ => 0) [32, 32, 104, 105] (fun _ => 0) 16 96).cells
      = [none, none, some (0, 0), some (0, 1)] :=
  ⟨leading_spaces_suppressed (fun _ _ => 0) [104, 105] (fun _ => 0) 16 96 2 (by decide),
    by decide⟩

/-! ## Text layout: words that fit a row -/

/-- The records already made are never changed by the rest of the loop. -/
theorem loop_cells_append (font : Nat → Nat → Nat) (rows cols : Nat) (msg : List Nat) :
    ∀ s : Layout, ∃ t, (sprintf_display_loop font rows cols msg s).cells = s.cells ++ t := by
  induction msg with
  | nil => intro s; exact ⟨[], by simp [sprintf_display_loop]⟩
  | cons c rest ih =>
    intro s
    have cont : ∀ s2 : Layout, (∃ x, s2.cells = s.cells ++ [x]) →
        ∃ t, (sprintf_display_loop font rows cols rest s2).cells = s.cells ++ t := by
      intro s2 ⟨x, hx⟩
      obtain ⟨t, ht⟩ := ih s2
      exact ⟨[x] ++ t, by rw [ht, hx, List.append_assoc]⟩
    simp only [sprintf_display_loop]
    split_ifs
    · exact ⟨[], by simp⟩
    · exact cont _ ⟨_, rfl⟩
    · exact cont _ ⟨_, rfl⟩
    · exact cont _ ⟨_, rfl⟩
    · exact ⟨[_], rfl⟩
    · exact cont _ ⟨_, by rw [next_cells, advance_cells]⟩
    · exact cont _ ⟨_, by rw [next_cells, advance_cells]⟩

theorem loop_cells_getD (font : Nat → Nat → Nat) (rows cols : Nat) (msg : List Nat)
    (s : Layout) (i : Nat) (hi : i < s.cells.length) :
    (sprintf_display_loop font rows cols msg s).cells.getD i none = s.cells.getD i none := by
  obtain ⟨t, ht⟩ := loop_cells_append font rows cols msg s
  rw [ht, List.getD_append _ _ _ _ hi]

theorem loop_cells_length_le (font : Nat → Nat → Nat) (rows cols : Nat) (msg : List Nat)
    (s : Layout) : s.cells.length ≤ (sprintf_display_loop font rows cols msg s).cells.length := by
  obtain ⟨t, ht⟩ := loop_cells_append font rows cols msg s
  rw [ht, List.length_append]
  omega

/-- The lookahead scan measures the word that follows. -/
theorem word_len_append (word post : List Nat) (hword : ∀ c ∈ word, c ≠ 0 ∧ c ≠ 32)
    (hpost : post = [] ∨ post.head? = some 32) : word_len (word ++ post) = word.length := by
  unfold word_len
  induction word with
  | nil =>
    rcases hpost with h | h
    · rw [h]; rfl
    · cases post with
      | nil => rfl
      | cons d post2 =>
        simp only [List.head?_cons, Option.some.injEq] at h
        rw [h]
        rfl
  | cons c w ih =>
    have hc := hword c (List.mem_cons_self _ _)
    have hw : ∀ x ∈ w, x ≠ 0 ∧ x ≠ 32 := fun x hx => hword x (List.mem_cons_of_mem _ hx)
    have hp : (c != 0 && c != 32) = true := by simp [hc.1, hc.2]
    rw [List.cons_append,
      List.takeWhile_cons_of_pos (p := fun c => c != 0 && c != 32) (l := w ++ post) hp,
      List.length_cons, ih hw, List.length_cons]

/-- A run of characters other than space that fits the rest of the current row
is rasterized in that row, in consecutive columns from the cursor on. -/
theorem loop_word_cells (font : Nat → Nat → Nat) (rows cols : Nat) (hc16 : cols < 65536)
    (post : List Nat) (word : List Nat) :
    ∀ s : Layout, (∀ c ∈ word, c ≠ 0 ∧ c ≠ 32) → s.char_col + word.length ≤ cols / 8 →
      ∀ i, i < word.length →
        (sprintf_display_loop font rows cols (word ++ post) s).cells.getD (s.cells.length + i) none
          = some (s.char_row, s.char_col + i) := by
  induction word with
  | nil => intro s _ _ i hi; simp at hi
  | cons ch w ih =>
    intro s hword hfit i hi
    have hch := hword ch (List.mem_cons_self _ _)
    have hw : ∀ x ∈ w, x ≠ 0 ∧ x ≠ 32 := fun x hx => hword x (List.mem_cons_of_mem _ hx)
    simp only [List.length_cons] at hfit hi
    rw [List.cons_append, sprintf_display_loop, if_neg hch.1, if_neg (fun h => hch.2 h.1)]
    simp only
    rw [if_neg (fun h => hch.2 h.1)]
    cases i with
    | zero =>
      rw [loop_cells_getD _ _ _ _ _ _ (by simp)]
      simp
    | succ i =>
      have hadv : ∀ a : Nat → Nat,
          (Layout.advance { s with display_area := a } cols).char_col = s.char_col + 1 ∧
          (Layout.advance { s with display_area := a } cols).char_row = s.char_row := by
        intro a
        unfold Layout.advance
        have hlt : Int.ofNat s.char_col < Int.ofNat (cols / 8) - 1 := by
          simp only [Int.ofNat_eq_coe]
          omega
        simp only [hlt, if_true]
        exact ⟨Nat.mod_eq_of_lt (by omega), trivial⟩
      have key : ∀ s1 : Layout, s1.char_col = s.char_col + 1 → s1.char_row = s.char_row →
          s1.cells.length = s.cells.length + 1 →
          (sprintf_display_loop font rows cols (w ++ post) s1).cells.getD
              (s.cells.length + (i + 1)) none
            = some (s.char_row, s.char_col + (i + 1)) := by
        intro s1 h1 h2 h3
        have h := ih s1 hw (by rw [h1]; omega) i (by omega)
        rw [h1, h2, h3] at h
        have e1 : s.cells.length + (i + 1) = s.cells.length + 1 + i := by omega
        have e2 : s.char_col + (i + 1) = s.char_col + 1 + i := by omega
        rw [e1, e2]
        exact h
      exact key _ (by rw [next_char_col]; exact (hadv _).1)
        (by rw [next_char_row]; exact (hadv _).2)
        (by rw [next_cells, advance_cells, List.length_append, List.length_singleton])

/-- One pass of the loop either goes on with a state that has one more record
and its cursor column inside the grid, or returns with one more record. -/
theorem loop_cons_step (font : Nat → Nat → Nat) (rows cols : Nat) (hcols : 8 ≤ cols)
    (ch : Nat) (rest : List Nat) (s : Layout) (hch : ch ≠ 0) (hcol : s.char_col < cols / 8) :
    (∃ s2, sprintf_display_loop font rows cols (ch :: rest) s
          = sprintf_display_loop font rows cols rest s2 ∧
        s2.cells.length = s.cells.length + 1 ∧ s2.char_col < cols / 8) ∨
    (sprintf_display_loop font rows cols (ch :: rest) s).cells.length = s.cells.length + 1 := by
  have hW : 0 < cols / 8 := by omega
  have hadv : ∀ a : Nat → Nat,
      (Layout.advance { s with display_area := a } cols).char_col < cols / 8 := by
    intro a
    unfold Layout.advance
    split
    · rename_i h
      simp only [Int.ofNat_eq_coe] at h
      show (s.char_col + 1) % 65536 < cols / 8
      have := Nat.mod_le (s.char_col + 1) 65536
      omega
    · exact hW
  simp only [sprintf_display_loop, if_neg hch]
  split_ifs
  · exact Or.inl ⟨_, rfl, by simp, hcol⟩
  · exact Or.inl ⟨_, rfl, by simp, hcol⟩
  · exact Or.inl ⟨_, rfl, by simp [Layout.next], hW⟩
  · exact Or.inr (by simp)
  · exact Or.inl ⟨_, rfl, by simp, by rw [next_char_col]; exact hadv _⟩
  · exact Or.inl ⟨_, rfl, by simp, by rw [next_char_col]; exact hadv _⟩

/-- A word behind a space that fits a row and is reached by the layout is
rasterized in one row, in consecutive columns. -/
theorem loop_later_word_cells (font : Nat → Nat → Nat) (rows cols : Nat) (hcols : 8 ≤ cols)
    (hc16 : cols < 65536) (word post : List Nat) (hword : ∀ c ∈ word, c ≠ 0 ∧ c ≠ 32)
    (hne : word ≠ []) (hpost : post = [] ∨ post.head? = some 32)
    (hfit : word.length ≤ cols / 8) (pre : List Nat) :
    ∀ s : Layout, pre ≠ [] → pre.getLast? = some 32 → (∀ c ∈ pre, c ≠ 0) →
      s.char_col < cols / 8 →
      s.cells.length + pre.length
        < (sprintf_display_loop font rows cols (pre ++ (word ++ post)) s).cells.length →
      ∃ r c, c + word.length ≤ cols / 8 ∧ ∀ i, i < word.length →
        (sprintf_display_loop font rows cols (pre ++ (word ++ post)) s).cells.getD
            (s.cells.length + pre.length + i) none = some (r, c + i) := by
  induction pre with
  | nil => intro s h; exact absurd rfl h
  | cons ch pre2 ih =>
    intro s _ hlast hz hcol hras
    have hch0 : ch ≠ 0 := hz ch (List.mem_cons_self _ _)
    have hz2 : ∀ c ∈ pre2, c ≠ 0 := fun c hc => hz c (List.mem_cons_of_mem _ hc)
    by_cases hp : pre2 = []
    · subst hp
      have h32 : ch = 32 := by simpa using hlast
      subst h32
      simp only [List.cons_append, List.nil_append, List.length_cons, List.length_nil,
        Nat.zero_add] at hras ⊢
      have hlen1 : 1 ≤ word.length := by
        cases word with
        | nil => exact absurd rfl hne
        | cons _ _ => simp
      have key : ∀ s1 : Layout, s1.char_col + word.length ≤ cols / 8 →
          s1.cells.length = s.cells.length + 1 → ∀ i, i < word.length →
          (sprintf_display_loop font rows cols (word ++ post) s1).cells.getD
              (s.cells.length + 1 + i) none = some (s1.char_row, s1.char_col + i) := by
        intro s1 h1 h2 i hi
        rw [← h2]
        exact loop_word_cells font rows cols hc16 post word s1 hword h1 i hi
      by_cases hc0 : s.char_col = 0
      · rw [sprintf_display_loop, if_neg (by decide), if_pos ⟨rfl, hc0⟩]
        refine ⟨s.char_row, 0, by omega, fun i hi => ?_⟩
        refine (key _ ?_ ?_ i hi).trans ?_
        · rw [next_char_col, hc0]; omega
        · rw [next_cells, List.length_append, List.length_singleton]
        · rw [next_char_row, next_char_col, hc0]
      · have hhead : (word ++ post).headD 0 ≠ 0 ∧ (word ++ post).headD 0 ≠ 32 := by
          cases word with
          | nil => exact absurd rfl hne
          | cons w0 w => exact hword w0 (List.mem_cons_self _ _)
        have hnl : ¬ (Int.ofNat word.length > Int.ofNat (cols / 8)) := by
          simp only [Int.ofNat_eq_coe]
          omega
        rw [sprintf_display_loop, if_neg (by decide), if_neg (fun h => hc0 h.2)] at hras ⊢
        simp only [word_len_append word post hword hpost, ne_eq, hhead.1, hhead.2,
          not_false_eq_true, and_self, if_true, hnl, if_false] at hras ⊢
        by_cases hj : Int.ofNat word.length
            > Int.ofNat (cols / 8) - Int.ofNat s.char_col - 1 - 1
        · rw [if_pos hj] at hras ⊢
          by_cases hr : Int.ofNat s.char_row < Int.ofNat (rows / 8) - 1
          · rw [if_pos hr]
            refine ⟨(s.char_row + 1) % 65536, 0, by omega, fun i hi => ?_⟩
            refine (key _ ?_ ?_ i hi).trans ?_
            · show 0 + word.length ≤ cols / 8
              omega
            · show (s.cells ++ [_]).length = _
              rw [List.length_append, List.length_singleton]
            · rfl
          · rw [if_neg hr] at hras
            simp at hras
        · rw [if_neg hj] at hras ⊢
          simp only [Int.ofNat_eq_coe] at hj
          have hadv : ∀ a : Nat → Nat,
              (Layout.advance { s with display_area := a } cols).char_col = s.char_col + 1 ∧
              (Layout.advance { s with display_area := a } cols).char_row = s.char_row := by
            intro a
            unfold Layout.advance
            have hlt : Int.ofNat s.char_col < Int.ofNat (cols / 8) - 1 := by
              simp only [Int.ofNat_eq_coe]
              omega
            simp only [hlt, if_true]
            exact ⟨Nat.mod_eq_of_lt (by omega), trivial⟩
          refine ⟨s.char_row, s.char_col + 1, by omega, fun i hi => ?_⟩
          refine (key _ ?_ ?_ i hi).trans ?_
          · rw [next_char_col, (hadv _).1]; omega
          · rw [next_cells, advance_cells, List.length_append, List.length_singleton]
          · rw [next_char_row, next_char_col, (hadv _).1, (hadv _).2]
    · have hlast2 : pre2.getLast? = some 32 := by
        cases pre2 with
        | nil => exact absurd rfl hp
        | cons d p3 =>
          rw [List.getLast?_cons_cons] at hlast
          exact hlast
      simp only [List.cons_append, List.length_cons] at hras ⊢
      rcases loop_cons_step font rows cols hcols ch (pre2 ++ (word ++ post)) s hch0 hcol with
        ⟨s2, he, hl, hc⟩ | hret
      · rw [he] at hras ⊢
        obtain ⟨r, c, h1, h2⟩ := ih s2 hp hlast2 hz2 hc (by omega)
        refine ⟨r, c, h1, fun i hi => ?_⟩
        have h := h2 i hi
        rw [hl] at h
        have e : s.cells.length + (pre2.length + 1) + i = s.cells.length + 1 + pre2.length + i := by
          omega
        rw [e]
        exact h
      · omega

/-- C8: words that fit a row are never split. For a panel with `cols ≥ 8` and a
message `pre ++ word ++ post` in which `word` is a maximal run of characters
other than space (`pre` is empty or ends with a space, `post` is empty or
starts with one) of length at most `cols/8`, if the layout reaches the word
then all its characters are rasterized in one cell row `r`, in the consecutive
columns `c, c+1, ...`, inside the grid. -/
theorem words_not_split (font : Nat → Nat → Nat) (area : Nat → Nat) (pre word post : List Nat)
    (rows cols : Nat) (hcols : 8 ≤ cols) (hc16 : cols < 65536)
    (hz : ∀ c ∈ pre ++ word ++ post, c ≠ 0) (hword : ∀ c ∈ word, c ≠ 32) (hne : word ≠ [])
    (hpre : pre = [] ∨ pre.getLast? = some 32) (hpost : post = [] ∨ post.head? = some 32)
    (hfit : word.length ≤ cols / 8)
    (hras : pre.length < (sprintf_display font (pre ++ word ++ post) area rows cols).cells.length) :
    ∃ r c, c + word.length ≤ cols / 8 ∧ ∀ i, i < word.length →
      (sprintf_display font (pre ++ word ++ post) area rows cols).cells.getD (pre.length + i) none
        = some (r, c + i) := by
  have hw : ∀ c ∈ word, c ≠ 0 ∧ c ≠ 32 := fun c hc =>
    ⟨hz c (List.mem_append_left _ (List.mem_append_right _ hc)), hword c hc⟩
  have hzp : ∀ c ∈ pre, c ≠ 0 := fun c hc =>
    hz c (List.mem_append_left _ (List.mem_append_left _ hc))
  rw [List.append_assoc] at hras ⊢
  unfold sprintf_display at hras ⊢
  by_cases hp : pre = []
  · subst hp
    refine ⟨0, 0, by omega, fun i hi => ?_⟩
    have h := loop_word_cells font rows cols hc16 post word
      { display_area := area, char_row := 0, char_col := 0, processed_chars := 0,
        cells := [], returned := false } hw (by show 0 + word.length ≤ cols / 8; omega) i hi
    simpa using h
  · have hlast : pre.getLast? = some 32 := by
      rcases hpre with h | h
      · exact absurd h hp
      · exact h
    have h := loop_later_word_cells font rows cols hcols hc16 word post hw hne hpost hfit pre
      { display_area := area, char_row := 0, char_col := 0, processed_chars := 0,
        cells := [], returned := false } hp hlast hzp (by show 0 < cols / 8; omega)
      (by simpa using hras)
    simpa using h

/-- Witness for C8: `"a bb ccc"` on the 16 x 24 panel (3 x 2 cells), the word
`"bb"`: its two characters are rasterized at cells (1,0) and (1,1). -/
theorem words_not_split_witness :
    (∃ r c, c + [98, 98].length ≤ 24 / 8 ∧ ∀ i, i < [98, 98].length →
      (sprintf_display (fun _ _ => 0) ([97, 32] ++ [98, 98] ++ [32, 99, 99, 99]) (fun _ => 0) 16
          24).cells.getD ([97, 32].length + i) none = some (r, c + i)) ∧
    (sprintf_display (fun _ _ => 0) ([97, 32] ++ [98, 98] ++ [32, 99, 99, 99]) (fun _ => 0) 16
        24).cells = [some (0, 0), some (0, 1), some (1, 0), some (1, 1), some (1, 2)] :=
  ⟨words_not_split (fun _ _ => 0) (fun _ => 0) [97, 32] [98, 98] [32, 99, 99, 99] 16 24
      (by decide) (by decide) (by decide) (by decide) (by decide) (by decide) (by decide)
      (by decide) (by decide),
    by decide⟩

/-! ## The glyph rasterizer -/

theorem one_shiftLeft_testBit (k b : Nat) : (1 <<< k).testBit b = decide (k = b) := by
  rw [Nat.shiftLeft_eq, Nat.one_mul, Nat.testBit_two_pow]

theorem and_one_shiftLeft (x j : Nat) : x &&& (1 <<< j) = if x.testBit j then 2 ^ j else 0 := by
  apply Nat.eq_of_testBit_eq
  intro b
  rw [Nat.testBit_and, one_shiftLeft_testBit]
  by_cases h : x.testBit j = true
  · rw [if_pos h, Nat.testBit_two_pow]
    by_cases hjb : j = b
    · subst hjb; simp [h]
    · simp [hjb]
  · rw [if_neg h]
    by_cases hjb : j = b
    · subst hjb; simp [h]
    · simp [hjb]

/-- The `dot` argument the glyph loop passes to `set_dot` is non-zero exactly
when bit `j` of the glyph row is set. -/
theorem dot_ne_zero_iff (x j : Nat) (hj : j < 8) :
    decide ((x &&& (1 <<< j)) % 256 ≠ 0) = x.testBit j := by
  rw [and_one_shiftLeft]
  have h2 : 2 ^ j % 256 ≠ 0 := by interval_cases j <;> decide
  by_cases h : x.testBit j = true
  · rw [if_pos h, h]
    exact decide_eq_true h2
  · rw [if_neg h]
    simp only [Bool.not_eq_true] at h
    rw [h]
    exact decide_eq_false (by simp)

theorem load_store (m : Nat → Nat) (i v p : Nat) :
    load (store m i v) p = if p = i then v % 256 else load m p := by
  unfold load store
  split
  · exact Nat.mod_mod _ _
  · rfl

theorem load_lt (m : Nat → Nat) (p : Nat) : load m p < 256 := by
  unfold load
  omega

/-- What `set_dot` does to the bits of the bitmap. -/
theorem set_dot_pixel (m : Nat → Nat) (row col dot p b : Nat) (hb : b < 8) :
    pixel (set_dot m row col dot) p b
      = if p = row / 8 * DISPLAY_N_COLS + col ∧ b = row % 8 then decide (dot ≠ 0)
        else pixel m p b := by
  have hmod : ∀ x : Nat, (x % 256).testBit b = x.testBit b := by
    intro x
    have h := Nat.testBit_mod_two_pow x 8 b
    norm_num at h
    rw [h]
    simp [hb]
  have hff : (0xff : Nat).testBit b = true := by
    have h := Nat.testBit_two_pow_sub_one 8 b
    norm_num at h
    rw [h]
    simp [hb]
  unfold pixel set_dot
  by_cases hd : dot ≠ 0
  · rw [if_pos hd, load_store]
    by_cases hp : p = row / 8 * DISPLAY_N_COLS + col
    · rw [if_pos hp, hmod, Nat.testBit_or, one_shiftLeft_testBit]
      by_cases hbit : b = row % 8
      · rw [if_pos ⟨hp, hbit⟩]
        simp [hbit, hd]
      · rw [if_neg (fun h => hbit h.2), hp]
        have : ¬ (row % 8 = b) := fun h => hbit h.symm
        simp [this]
    · rw [if_neg hp, if_neg (fun h => hp h.1)]
  · rw [if_neg hd, load_store]
    by_cases hp : p = row / 8 * DISPLAY_N_COLS + col
    · rw [if_pos hp, hmod, Nat.testBit_and, Nat.testBit_xor, one_shiftLeft_testBit, hff]
      by_cases hbit : b = row % 8
      · rw [if_pos ⟨hp, hbit⟩]
        simp [hbit, hd]
      · rw [if_neg (fun h => hbit h.2), hp]
        have : ¬ (row % 8 = b) := fun h => hbit h.symm
        simp [this]
    · rw [if_neg hp, if_neg (fun h => hp h.1)]

theorem for_upto_zero {σ : Type} (f : Nat → σ → σ) (s : σ) : for_upto 0 f s = s := rfl

theorem for_upto_succ {σ : Type} (k : Nat) (f : Nat → σ → σ) (s : σ) :
    for_upto (k + 1) f s = f k (for_upto k f s) := rfl

/-- The inner loop of the glyph loop after `J` passes, for glyph row `i` of a
glyph rasterized at cell `(r, c)`. -/
theorem draw_row_pixel (fc m : Nat → Nat) (r c i : Nat) (hr : r < 8192) (hc : c < 8192)
    (hi : i < 8) (J : Nat) (hJ : J ≤ 8) (p b : Nat) (hb : b < 8) :
    pixel (for_upto J (fun j area =>
        set_dot area ((r * 8 % 65536 + i) % 65536) ((c * 8 % 65536 + j) % 65536)
          ((fc i &&& (1 <<< j)) % 256)) m) p b
      = if r * 96 + c * 8 ≤ p ∧ p < r * 96 + c * 8 + J ∧ b = i then
          decide ((fc i &&& (1 <<< (p - (r * 96 + c * 8)))) % 256 ≠ 0)
        else pixel m p b := by
  induction J with
  | zero =>
    rw [for_upto_zero, if_neg (by omega)]
  | succ J ih =>
    rw [for_upto_succ, set_dot_pixel _ _ _ _ _ _ hb, ih (by omega)]
    have e1 : (r * 8 % 65536 + i) % 65536 / 8 = r := by omega
    have e2 : (r * 8 % 65536 + i) % 65536 % 8 = i := by omega
    have e3 : (c * 8 % 65536 + J) % 65536 = c * 8 + J := by omega
    rw [e1, e2, e3]
    unfold DISPLAY_N_COLS
    by_cases h1 : p = r * 96 + (c * 8 + J) ∧ b = i
    · have e4 : p - (r * 96 + c * 8) = J := by omega
      rw [if_pos h1, if_pos (by omega), e4]
    · rw [if_neg h1]
      by_cases h2 : r * 96 + c * 8 ≤ p ∧ p < r * 96 + c * 8 + J ∧ b = i
      · rw [if_pos h2, if_pos (by omega)]
      · rw [if_neg h2, if_neg (by omega)]

/-- The glyph loop after `I` passes of its outer loop. -/
theorem draw_rows_pixel (fc m : Nat → Nat) (r c : Nat) (hr : r < 8192) (hc : c < 8192)
    (I : Nat) (hI : I ≤ 8) (p b : Nat) (hb : b < 8) :
    pixel (for_upto I (fun i area => for_upto 8 (fun j area =>
        set_dot area ((r * 8 % 65536 + i) % 65536) ((c * 8 % 65536 + j) % 65536)
          ((fc i &&& (1 <<< j)) % 256)) area) m) p b
      = if r * 96 + c * 8 ≤ p ∧ p < r * 96 + c * 8 + 8 ∧ b < I then
          decide ((fc b &&& (1 <<< (p - (r * 96 + c * 8)))) % 256 ≠ 0)
        else pixel m p b := by
  induction I with
  | zero =>
    rw [for_upto_zero, if_neg (by omega)]
  | succ I ih =>
    rw [for_upto_succ, draw_row_pixel fc _ r c I hr hc (by omega) 8 (Nat.le_refl 8) p b hb, ih (by omega)]
    by_cases h1 : r * 96 + c * 8 ≤ p ∧ p < r * 96 + c * 8 + 8 ∧ b = I
    · rw [if_pos h1, if_pos (by omega), h1.2.2]
    · rw [if_neg h1]
      by_cases h2 : r * 96 + c * 8 ≤ p ∧ p < r * 96 + c * 8 + 8 ∧ b < I
      · rw [if_pos h2, if_pos (by omega)]
      · rw [if_neg h2, if_neg (by omega)]

/-- The bits of the bitmap after a glyph was rasterized at cell `(r, c)`: the
8 bytes from index `r * 96 + 8 * c` hold the glyph, every other byte is as
before. -/
theorem draw_glyph_pixel (fc m : Nat → Nat) (r c : Nat) (hr : r < 8192) (hc : c < 8192)
    (p b : Nat) (hb : b < 8) :
    pixel (draw_glyph fc m (r * 8 % 65536) (c * 8 % 65536)) p b
      = if r * 96 + c * 8 ≤ p ∧ p < r * 96 + c * 8 + 8 then (fc b).testBit (p - (r * 96 + c * 8))
        else pixel m p b := by
  unfold draw_glyph
  rw [draw_rows_pixel fc m r c hr hc 8 (Nat.le_refl 8) p b hb]
  by_cases h : r * 96 + c * 8 ≤ p ∧ p < r * 96 + c * 8 + 8
  · rw [if_pos (by omega), if_pos h, dot_ne_zero_iff _ _ (by omega)]
  · rw [if_neg (by omega), if_neg h]

/-- One pass of the loop over a character other than NUL: the character is
skipped, or its glyph is rasterized at the cursor and the loop goes on or
returns. -/
theorem loop_cons_cases (font : Nat → Nat → Nat) (rows cols : Nat) (ch : Nat) (rest : List Nat)
    (s : Layout) (hch : ch ≠ 0) :
    (sprintf_display_loop font rows cols (ch :: rest) s
        = sprintf_display_loop font rows cols rest (s.next none)) ∨
    (∃ s2, (sprintf_display_loop font rows cols (ch :: rest) s
          = sprintf_display_loop font rows cols rest s2 ∨
        sprintf_display_loop font rows cols (ch :: rest) s = s2) ∧
      s2.cells = s.cells ++ [some (s.char_row, s.char_col)] ∧
      s2.display_area = draw_glyph (get_font_char font ch) s.display_area
        (s.char_row * 8 % 65536) (s.char_col * 8 % 65536)) := by
  simp only [sprintf_display_loop, if_neg hch]
  split_ifs
  · exact Or.inl rfl
  · exact Or.inr ⟨_, Or.inl rfl, rfl, rfl⟩
  · exact Or.inr ⟨_, Or.inl rfl, rfl, rfl⟩
  · exact Or.inr ⟨_, Or.inr rfl, rfl, rfl⟩
  · exact Or.inr ⟨_, Or.inl rfl, by rw [next_cells, advance_cells],
      by rw [next_display_area, advance_display_area]⟩
  · exact Or.inr ⟨_, Or.inl rfl, by rw [next_cells, advance_cells],
      by rw [next_display_area, advance_display_area]⟩

theorem getD_length_append (l t : List (Option (Nat × Nat))) (x : Option (Nat × Nat)) :
    (l ++ [x] ++ t).getD l.length none = x := by
  rw [List.append_assoc, List.getD_append_right _ _ _ _ (Nat.le_refl _), Nat.sub_self]
  rfl

/-- Bytes at which no later glyph is rasterized keep their bits to the end of
the layout. -/
theorem loop_preserves_bytes (font : Nat → Nat → Nat) (rows cols : Nat) (B : Nat)
    (hB : B % 8 = 0) (msg : List Nat) :
    ∀ s : Layout,
      (∀ n r c, s.cells.length ≤ n →
        (sprintf_display_loop font rows cols msg s).cells.getD n none = some (r, c) →
        r < 8192 ∧ c < 8192 ∧ r * 96 + c * 8 ≠ B) →
      ∀ p b, B ≤ p → p < B + 8 → b < 8 →
        pixel (sprintf_display_loop font rows cols msg s).display_area p b
          = pixel s.display_area p b := by
  induction msg with
  | nil => intro s _ p b _ _ _; rfl
  | cons ch rest ih =>
    intro s hlater p b hp1 hp2 hb
    by_cases hch : ch = 0
    · rw [sprintf_display_loop, if_pos hch]
    rcases loop_cons_cases font rows cols ch rest s hch with he | ⟨s2, he, hcells, harea⟩
    · rw [he] at hlater ⊢
      rw [ih (s.next none) (fun n r c hn h => hlater n r c
        (by rw [next_cells, List.length_append, List.length_singleton] at hn; omega) h)
        p b hp1 hp2 hb]
      rfl
    · have hlen : s2.cells.length = s.cells.length + 1 := by
        rw [hcells, List.length_append, List.length_singleton]
      have hdraw : ∀ r c, some (s.char_row, s.char_col) = some (r, c) →
          r < 8192 ∧ c < 8192 ∧ r * 96 + c * 8 ≠ B → pixel s2.display_area p b
            = pixel s.display_area p b := by
        intro r c hrc ⟨h1, h2, h3⟩
        simp only [Option.some.injEq, Prod.mk.injEq] at hrc
        rw [harea, hrc.1, hrc.2, draw_glyph_pixel _ _ r c h1 h2 p b hb, if_neg (by omega)]
      rcases he with he | he
      · rw [he] at hlater ⊢
        obtain ⟨t, ht⟩ := loop_cells_append font rows cols rest s2
        have h0 := hlater s.cells.length s.char_row s.char_col (Nat.le_refl _)
          (by rw [ht, hcells, getD_length_append])
        rw [ih s2 (fun n r c hn h => hlater n r c (by omega) h) p b hp1 hp2 hb]
        exact hdraw _ _ rfl h0
      · rw [he] at hlater ⊢
        have h0 := hlater s.cells.length s.char_row s.char_col (Nat.le_refl _)
          (by
            rw [hcells]
            have := getD_length_append s.cells [] (some (s.char_row, s.char_col))
            rwa [List.append_nil] at this)
        exact hdraw _ _ rfl h0

/-- The glyph of the character at index `n` of the string, in the bitmap the
loop leaves, when no later glyph is rasterized over its bytes. -/
theorem loop_glyph_pixels (font : Nat → Nat → Nat) (rows cols : Nat) (msg : List Nat) :
    ∀ (s : Layout) (n r c : Nat),
      (sprintf_display_loop font rows cols msg s).cells.getD (s.cells.length + n) none
        = some (r, c) →
      r < 8192 → c < 8192 →
      (∀ n2 r2 c2, s.cells.length + n < n2 →
        (sprintf_display_loop font rows cols msg s).cells.getD n2 none = some (r2, c2) →
        r2 < 8192 ∧ c2 < 8192 ∧ r2 * 96 + c2 * 8 ≠ r * 96 + c * 8) →
      ∀ i j, i < 8 → j < 8 →
        pixel (sprintf_display_loop font rows cols msg s).display_area (r * 96 + (c * 8 + j)) i
          = (get_font_char font (msg.getD n 0) i).testBit j := by
  induction msg with
  | nil =>
    intro s n r c hcell
    rw [sprintf_display_loop, List.getD_eq_default _ _ (by omega)] at hcell
    exact absurd hcell (by simp)
  | cons ch rest ih =>
    intro s n r c hcell hr hc hlater i j hi hj
    by_cases hch : ch = 0
    · rw [sprintf_display_loop, if_pos hch, List.getD_eq_default _ _ (by omega)] at hcell
      exact absurd hcell (by simp)
    rcases loop_cons_cases font rows cols ch rest s hch with he | ⟨s2, he, hcells, harea⟩
    · rw [he] at hcell hlater ⊢
      have hlen : (s.next none).cells.length = s.cells.length + 1 := by
        rw [next_cells, List.length_append, List.length_singleton]
      cases n with
      | zero =>
        obtain ⟨t, ht⟩ := loop_cells_append font rows cols rest (s.next none)
        rw [ht, next_cells, Nat.add_zero, getD_length_append] at hcell
        exact absurd hcell (by simp)
      | succ n =>
        have e : s.cells.length + (n + 1) = (s.next none).cells.length + n := by omega
        rw [e] at hcell hlater
        exact ih (s.next none) n r c hcell hr hc hlater i j hi hj
    · have hlen : s2.cells.length = s.cells.length + 1 := by
        rw [hcells, List.length_append, List.length_singleton]
      cases n with
      | zero =>
        have hdraw : some (s.char_row, s.char_col) = some (r, c) →
            pixel s2.display_area (r * 96 + (c * 8 + j)) i
              = (get_font_char font ch i).testBit j := by
          intro hrc
          simp only [Option.some.injEq, Prod.mk.injEq] at hrc
          rw [harea, hrc.1, hrc.2, draw_glyph_pixel _ _ r c hr hc _ i hi, if_pos (by omega)]
          congr 1
          omega
        rw [List.getD_cons_zero]
        rcases he with he | he
        · rw [he] at hcell hlater ⊢
          obtain ⟨t, ht⟩ := loop_cells_append font rows cols rest s2
          rw [ht, hcells, Nat.add_zero, getD_length_append] at hcell
          rw [loop_preserves_bytes font rows cols (r * 96 + c * 8) (by omega) rest s2
            (fun n2 r2 c2 hn h => hlater n2 r2 c2 (by omega) h) _ i (by omega) (by omega) hi]
          exact hdraw hcell
        · rw [he] at hcell ⊢
          rw [hcells, Nat.add_zero] at hcell
          have h0 := getD_length_append s.cells [] (some (s.char_row, s.char_col))
          rw [List.append_nil] at h0
          rw [h0] at hcell
          exact hdraw hcell
      | succ n =>
        rcases he with he | he
        · rw [he] at hcell hlater ⊢
          have e : s.cells.length + (n + 1) = s2.cells.length + n := by omega
          rw [e] at hcell hlater
          rw [List.getD_cons_succ]
          exact ih s2 n r c hcell hr hc hlater i j hi hj
        · rw [he, List.getD_eq_default _ _ (by omega)] at hcell
          exact absurd hcell (by simp)

set_option maxRecDepth 100000 in
/-- C10, counterexample: on a 16 x 8 panel the message `"ab"` with a font whose
glyphs have every pixel set has its glyph `'b'` rasterized at the in-range cell
`(1, 0)`; the byte at index `r*cols + (8c+j) = 1*8 + 0` keeps bit 0 cleared
although bit 0 of glyph byte 0 is set: the glyph went to the bytes from index
`1*96 + 0` on. -/
theorem glyph_not_at_cols_stride :
    16 % 8 = 0 ∧ 8 ≤ 8 ∧
    (sprintf_display (fun _ _ => 255) [97, 98] (fun _ => 0) 16 8).cells.getD 1 none
      = some (1, 0) ∧
    1 < 16 / 8 ∧ 0 < 8 / 8 ∧
    (get_font_char (fun _ _ => 255) 98 0).testBit 0 = true ∧
    pixel (sprintf_display (fun _ _ => 255) [97, 98] (fun _ => 0) 16 8).display_area
      (1 * 8 + (8 * 0 + 0)) 0 = false ∧
    pixel (sprintf_display (fun _ _ => 255) [97, 98] (fun _ => 0) 16 8).display_area
      (1 * DISPLAY_N_COLS + (8 * 0 + 0)) 0 = true := by
  decide

/-- C10, amended: for `rows` a multiple of 8, `cols ≥ 8` and every glyph that
`sprintf_display(msg, bitmap, rows, cols)` rasterizes at an in-range cell
`(r, c)` and over whose bytes no later glyph of the same layout is rasterized,
the bitmap that is left has, for all `i, j < 8`, bit `i` of the byte at index
`r * DISPLAY_N_COLS + (8c + j)` set iff bit `j` of glyph byte `i` is set, and
cleared otherwise: the row stride is the constant `DISPLAY_N_COLS = 96`, which
is the claim's `cols` on the 96-column panel. -/
theorem glyph_rasterization (font : Nat → Nat → Nat) (msg : List Nat) (area : Nat → Nat)
    (rows cols : Nat) (_h8 : rows % 8 = 0) (_hcols : 8 ≤ cols) (hr16 : rows < 65536)
    (hc16 : cols < 65536) (n r c : Nat)
    (hcell : (sprintf_display font msg area rows cols).cells.getD n none = some (r, c))
    (hr : r < rows / 8) (hc : c < cols / 8)
    (hlater : ∀ n2 r2 c2, n < n2 →
      (sprintf_display font msg area rows cols).cells.getD n2 none = some (r2, c2) →
      r2 < 8192 ∧ c2 < 8192 ∧ r2 * DISPLAY_N_COLS + 8 * c2 ≠ r * DISPLAY_N_COLS + 8 * c) :
    ∀ i j, i < 8 → j < 8 →
      pixel (sprintf_display font msg area rows cols).display_area
          (r * DISPLAY_N_COLS + (8 * c + j)) i
        = (get_font_char font (msg.getD n 0) i).testBit j := by
  intro i j hi hj
  unfold sprintf_display at hcell hlater ⊢
  unfold DISPLAY_N_COLS at hlater ⊢
  have h := loop_glyph_pixels font rows cols msg
    { display_area := area, char_row := 0, char_col := 0, processed_chars := 0,
      cells := [], returned := false } n r c
    (by simpa using hcell) (by omega) (by omega)
    (fun n2 r2 c2 hn h2 => by
      have h3 := hlater n2 r2 c2 (by simpa using hn) h2
      omega)
    i j hi hj
  rw [Nat.mul_comm 8 c]
  exact h

set_option maxRecDepth 100000 in
/-- Witness for C10 (amended): the glyph `'a'` of `"ab"` on the 16 x 96 panel,
rasterized at cell (0,0), pixel `i = 2`, `j = 3`; the later glyph `'b'` is
rasterized at cell (0,1). -/
theorem glyph_rasterization_witness :
    pixel (sprintf_display (fun c k => c + k) [97, 98] (fun _ => 0) 16 96).display_area
        (0 * DISPLAY_N_COLS + (8 * 0 + 3)) 2
      = (get_font_char (fun c k => c + k) ([97, 98].getD 0 0) 2).testBit 3 :=
  glyph_rasterization (fun c k => c + k) [97, 98] (fun _ => 0) 16 96 (by decide) (by decide)
    (by decide) (by decide) 0 0 0 (by decide) (by decide) (by decide)
    (by
      have hcells : (sprintf_display (fun c k => c + k) [97, 98] (fun _ => 0) 16 96).cells
          = [some (0, 0), some (0, 1)] := by decide
      intro n2 r2 c2 hn h
      rw [hcells] at h
      match n2, hn, h with
      | 1, _, h =>
        simp only [List.getD_cons_succ, List.getD_cons_zero, Option.some.injEq,
          Prod.mk.injEq] at h
        obtain ⟨h1, h2⟩ := h
        subst h1 h2
        decide
      | k + 2, _, h => simp at h)
    2 3 (by decide) (by decide)

/-! ## The reliable writer -/

theorem accepted_total_cons (call : Nat × Int × Int) (calls : List (Nat × Int × Int)) :
    accepted_total (call :: calls) = call.2.2.toNat + accepted_total calls := by
  simp [accepted_total]

theorem accepted_total_nil : accepted_total [] = 0 := rfl

/-- Bytes `a .. a + m + n - 1` of a buffer, split behind the first `m`. -/
theorem range_load_add (buf : Nat → Nat) (a m n : Nat) :
    (List.range (m + n)).map (fun i => load buf (a + i))
      = (List.range m).map (fun i => load buf (a + i))
        ++ (List.range n).map (fun i => load buf (a + m + i)) := by
  rw [List.range_add, List.map_append, List.map_map]
  congr 1
  apply List.map_congr_left
  intro i _
  simp [Nat.add_assoc]

/-- With a transport that accepts between 1 and `k` of `k ≥ 1` requested bytes
and nothing of 0 requested bytes, the loop sends the rest of the buffer. -/
theorem write_loop_complete {σ : Type} (write : σ → (Nat → Nat) → Int → Int × σ)
    (buf : Nat → Nat) (data_sz : Nat)
    (hacc : ∀ s d (k : Int), 1 ≤ k → 1 ≤ (write s d k).1 ∧ (write s d k).1 ≤ k)
    (hzero : ∀ s d, (write s d 0).1 ≤ 0) (fuel : Nat) :
    ∀ st : WriteState σ, st.remain_len + Int.ofNat st.data = Int.ofNat data_sz →
      0 ≤ st.remain_len → st.remain_len + 1 ≤ Int.ofNat fuel →
      ∃ tty new, write_raw_tty_loop write buf fuel st
          = ({ tty := tty, data := data_sz, remain_len := 0, calls := st.calls ++ new }, true) ∧
        new.flatMap (accepted_chunk buf)
          = (List.range (data_sz - st.data)).map (fun i => load buf (st.data + i)) ∧
        ∀ i off cnt ret, new[i]? = some (off, cnt, ret) →
          off = st.data + accepted_total (new.take i) ∧
          cnt = Int.ofNat data_sz - Int.ofNat off := by
  induction fuel with
  | zero =>
    intro st _ h0 hf
    simp only [Int.ofNat_eq_coe, Nat.cast_zero] at hf
    omega
  | succ fuel ih =>
    intro st hinv h0 hf
    simp only [Int.ofNat_eq_coe] at hinv hf
    rw [write_raw_tty_loop]
    by_cases hk : st.remain_len = 0
    · have hr := hzero st.tty (fun i => buf (st.data + i))
      rw [hk]
      rw [if_neg (by omega)]
      have hd : st.data = data_sz := by omega
      refine ⟨(write st.tty (fun i => buf (st.data + i)) 0).2,
        [(st.data, 0, (write st.tty (fun i => buf (st.data + i)) 0).1)], ?_, ?_, ?_⟩
      · rw [hd]
      · have ht : (write st.tty (fun i => buf (st.data + i)) 0).1.toNat = 0 := by omega
        simp only [List.flatMap_cons, List.flatMap_nil, List.append_nil, accepted_chunk, ht,
          List.range_zero, List.map_nil]
        rw [hd, Nat.sub_self]
        rfl
      · intro i off cnt ret hi
        cases i with
        | zero =>
          simp only [List.getElem?_cons_zero, Option.some.injEq, Prod.mk.injEq] at hi
          obtain ⟨h1, h2, _⟩ := hi
          subst h1 h2
          simp only [List.take_zero, accepted_total_nil, Int.ofNat_eq_coe]
          omega
        | succ i => simp at hi
    · have hr := hacc st.tty (fun i => buf (st.data + i)) st.remain_len (by omega)
      rw [if_pos (by omega)]
      obtain ⟨tty, new, h1, h2, h3⟩ := ih
        { tty := (write st.tty (fun i => buf (st.data + i)) st.remain_len).2,
          data := st.data + (write st.tty (fun i => buf (st.data + i)) st.remain_len).1.toNat,
          remain_len := st.remain_len - (write st.tty (fun i => buf (st.data + i)) st.remain_len).1,
          calls := st.calls ++
            [(st.data, st.remain_len, (write st.tty (fun i => buf (st.data + i)) st.remain_len).1)] }
        (by simp only [Int.ofNat_eq_coe]; omega) (by simp only; omega)
        (by simp only [Int.ofNat_eq_coe]; omega)
      simp only at h1 h2 h3
      refine ⟨tty, (st.data, st.remain_len,
        (write st.tty (fun i => buf (st.data + i)) st.remain_len).1) :: new, ?_, ?_, ?_⟩
      · rw [h1, List.append_assoc]
        rfl
      · rw [List.flatMap_cons, h2]
        have e : data_sz - st.data
            = (write st.tty (fun i => buf (st.data + i)) st.remain_len).1.toNat
              + (data_sz - (st.data
                + (write st.tty (fun i => buf (st.data + i)) st.remain_len).1.toNat)) := by
          omega
        rw [e, range_load_add]
        rfl
      · intro i off cnt ret hi
        cases i with
        | zero =>
          simp only [List.getElem?_cons_zero, Option.some.injEq, Prod.mk.injEq] at hi
          obtain ⟨h4, h5, _⟩ := hi
          subst h4 h5
          simp only [List.take_zero, accepted_total_nil, Int.ofNat_eq_coe]
          omega
        | succ i =>
          rw [List.getElem?_cons_succ] at hi
          obtain ⟨h4, h5⟩ := h3 i off cnt ret hi
          rw [List.take_succ_cons, accepted_total_cons]
          exact ⟨by rw [h4]; simp only; omega, h5⟩

/-- C11: short writes are retried to completion. For a valid descriptor, a
buffer of length 1..65535 and a transport whose `write` of `k ≥ 1` requested
bytes accepts between 1 and `k` of them and whose `write` of 0 bytes returns a
value `≤ 0`, `write_raw_tty` terminates (any bound of more than `data_sz` calls
is enough) and returns 0; the chunks accepted by the successive `write` calls,
concatenated, are the buffer, and each call is issued at the offset equal to
the total accepted so far, for exactly the remaining length. -/
theorem short_writes_retried {σ : Type} (write : σ → (Nat → Nat) → Int → Int × σ) (tty : σ)
    (fd : Int) (buf : Nat → Nat) (data_sz fuel : Nat) (hfd : 0 ≤ fd) (h1 : 1 ≤ data_sz)
    (_h2 : data_sz ≤ 65535)
    (hacc : ∀ s d (k : Int), 1 ≤ k → 1 ≤ (write s d k).1 ∧ (write s d k).1 ≤ k)
    (hzero : ∀ s d, (write s d 0).1 ≤ 0) (hfuel : data_sz + 1 ≤ fuel) :
    ∃ calls, write_raw_tty write tty fd (some buf) data_sz fuel = (some 0, calls) ∧
      calls.flatMap (accepted_chunk buf) = bytes buf data_sz ∧
      ∀ i off cnt ret, calls[i]? = some (off, cnt, ret) →
        off = accepted_total (calls.take i) ∧ cnt = Int.ofNat data_sz - Int.ofNat off := by
  obtain ⟨t, new, h3, h4, h5⟩ := write_loop_complete write buf data_sz hacc hzero fuel
    { tty := tty, data := 0, remain_len := Int.ofNat data_sz, calls := [] }
    (by simp) (by simp) (by simp only [Int.ofNat_eq_coe]; omega)
  refine ⟨new, ?_, ?_, ?_⟩
  · unfold write_raw_tty
    simp only
    rw [if_neg (by omega), h3]
    simp
  · rw [h4]
    simp [bytes]
  · intro i off cnt ret hi
    have h := h5 i off cnt ret hi
    simpa using h

/-- Witness for C11: a transport that accepts at most 2 bytes per call, a
5-byte buffer: four calls, at offsets 0, 2, 4 and 5. -/
theorem short_writes_retried_witness :
    (∃ calls, write_raw_tty
        (fun (s : Nat) (_ : Nat → Nat) (k : Int) => (if k ≤ 2 then max k 0 else 2, s + 1)) 0 3
        (some (ofList [1, 2, 3, 4, 5])) 5 6 = (some 0, calls) ∧
      calls.flatMap (accepted_chunk (ofList [1, 2, 3, 4, 5])) = bytes (ofList [1, 2, 3, 4, 5]) 5 ∧
      ∀ i off cnt ret, calls[i]? = some (off, cnt, ret) →
        off = accepted_total (calls.take i) ∧ cnt = Int.ofNat 5 - Int.ofNat off) ∧
    write_raw_tty
        (fun (s : Nat) (_ : Nat → Nat) (k : Int) => (if k ≤ 2 then max k 0 else 2, s + 1)) 0 3
        (some (ofList [1, 2, 3, 4, 5])) 5 6
      = (some 0, [(0, 5, 2), (2, 3, 2), (4, 1, 1), (5, 0, 0)]) :=
  ⟨short_writes_retried
      (fun (s : Nat) (_ : Nat → Nat) (k : Int) => (if k ≤ 2 then max k 0 else 2, s + 1)) 0 3
      (ofList [1, 2, 3, 4, 5]) 5 6 (by decide) (by decide) (by decide)
      (by
        intro s d k hk
        simp only
        split <;> omega)
      (by
        intro s d
        show (if (0 : Int) ≤ 2 then max (0 : Int) 0 else 2) ≤ 0
        decide)
      (by decide),
    by decide⟩

theorem accepted_total_take_succ (calls : List (Nat × Int × Int)) (i : Nat)
    (call : Nat × Int × Int) (hi : calls[i]? = some call) :
    accepted_total (calls.take (i + 1)) = accepted_total (calls.take i) + call.2.2.toNat := by
  rw [List.take_succ, hi]
  simp [accepted_total]

/-- The calls the loop makes, for any transport: every call is issued for what
remains after the bytes accepted before it, a call that returns a value `≤ 0`
is the last one and ends the loop, and the loop is still running after `fuel`
calls only if all of them returned a positive value. -/
theorem write_loop_calls {σ : Type} (write : σ → (Nat → Nat) → Int → Int × σ)
    (buf : Nat → Nat) (fuel : Nat) :
    ∀ st : WriteState σ, ∃ new,
      (write_raw_tty_loop write buf fuel st).1.calls = st.calls ++ new ∧
      (write_raw_tty_loop write buf fuel st).1.remain_len
        = st.remain_len - Int.ofNat (accepted_total new) ∧
      (∀ (i off : Nat) (cnt ret : Int), new[i]? = some (off, cnt, ret) →
        cnt = st.remain_len - Int.ofNat (accepted_total (new.take i)) ∧
        (ret ≤ 0 → i + 1 = new.length ∧ (write_raw_tty_loop write buf fuel st).2 = true)) ∧
      ((write_raw_tty_loop write buf fuel st).2 = false →
        new.length = fuel ∧ ∀ (i off : Nat) (cnt ret : Int), new[i]? = some (off, cnt, ret) → 0 < ret) := by
  induction fuel with
  | zero =>
    intro st
    refine ⟨[], by simp [write_raw_tty_loop], by simp [write_raw_tty_loop, accepted_total_nil],
      by intro i off cnt ret hi; simp at hi, fun _ => ⟨rfl, by intro i off cnt ret hi; simp at hi⟩⟩
  | succ fuel ih =>
    intro st
    rw [write_raw_tty_loop]
    by_cases hpos : (write st.tty (fun i => buf (st.data + i)) st.remain_len).1 > 0
    · rw [if_pos hpos]
      obtain ⟨new, h1, h2, h3, h4⟩ := ih
        { tty := (write st.tty (fun i => buf (st.data + i)) st.remain_len).2,
          data := st.data + (write st.tty (fun i => buf (st.data + i)) st.remain_len).1.toNat,
          remain_len := st.remain_len - (write st.tty (fun i => buf (st.data + i)) st.remain_len).1,
          calls := st.calls ++
            [(st.data, st.remain_len, (write st.tty (fun i => buf (st.data + i)) st.remain_len).1)] }
      simp only at h1 h2 h3 h4
      refine ⟨(st.data, st.remain_len,
        (write st.tty (fun i => buf (st.data + i)) st.remain_len).1) :: new, ?_, ?_, ?_, ?_⟩
      · rw [h1, List.append_assoc]
        rfl
      · rw [h2, accepted_total_cons]
        simp only [Int.ofNat_eq_coe]
        omega
      · intro i off cnt ret hi
        cases i with
        | zero =>
          simp only [List.getElem?_cons_zero, Option.some.injEq, Prod.mk.injEq] at hi
          obtain ⟨_, h5, h6⟩ := hi
          subst h5 h6
          refine ⟨by simp [accepted_total_nil], fun h => ?_⟩
          omega
        | succ i =>
          rw [List.getElem?_cons_succ] at hi
          obtain ⟨h5, h6⟩ := h3 i off cnt ret hi
          refine ⟨?_, fun h => ?_⟩
          · rw [h5, List.take_succ_cons, accepted_total_cons]
            simp only [Int.ofNat_eq_coe]
            omega
          · obtain ⟨h7, h8⟩ := h6 h
            exact ⟨by simp only [List.length_cons]; omega, h8⟩
      · intro hf
        obtain ⟨h5, h6⟩ := h4 hf
        refine ⟨by simp only [List.length_cons]; omega, ?_⟩
        intro i off cnt ret hi
        cases i with
        | zero =>
          simp only [List.getElem?_cons_zero, Option.some.injEq, Prod.mk.injEq] at hi
          obtain ⟨_, _, h7⟩ := hi
          omega
        | succ i =>
          rw [List.getElem?_cons_succ] at hi
          exact h6 i off cnt ret hi
    · rw [if_neg hpos]
      have ht : (write st.tty (fun i => buf (st.data + i)) st.remain_len).1.toNat = 0 := by omega
      refine ⟨[(st.data, st.remain_len,
        (write st.tty (fun i => buf (st.data + i)) st.remain_len).1)], rfl, ?_, ?_, ?_⟩
      · simp [accepted_total, ht]
      · intro i off cnt ret hi
        cases i with
        | zero =>
          simp only [List.getElem?_cons_zero, Option.some.injEq, Prod.mk.injEq] at hi
          obtain ⟨_, h5, _⟩ := hi
          subst h5
          exact ⟨by simp [accepted_total_nil], fun _ => ⟨rfl, rfl⟩⟩
        | succ i => simp at hi
      · intro hf
        simp at hf

/-- C12: a non-positive write result is terminal. For a valid descriptor and a
non-empty buffer, whatever the transport does: a `write` call that returns a
value `≤ 0` is the last call, it was issued for the bytes still unsent
(`data_sz` minus the bytes accepted), and `write_raw_tty` then returns
`-EFAULT` if that number is not 0 and 0 if it is; `write_raw_tty` returns 0
only if the accepted byte counts sum to `data_sz`; and the loop is still
running after `fuel` calls only if every one of them returned a positive
value. -/
theorem nonpositive_write_terminal {σ : Type} (write : σ → (Nat → Nat) → Int → Int × σ)
    (tty : σ) (fd : Int) (buf : Nat → Nat) (data_sz fuel : Nat) (hfd : 0 ≤ fd)
    (h1 : 1 ≤ data_sz) :
    (∀ (i off : Nat) (cnt ret : Int),
      (write_raw_tty write tty fd (some buf) data_sz fuel).2[i]? = some (off, cnt, ret) →
      ret ≤ 0 →
      i + 1 = (write_raw_tty write tty fd (some buf) data_sz fuel).2.length ∧
      cnt = Int.ofNat data_sz
        - Int.ofNat (accepted_total (write_raw_tty write tty fd (some buf) data_sz fuel).2) ∧
      (write_raw_tty write tty fd (some buf) data_sz fuel).1
        = some (if cnt ≠ 0 then -EFAULT else 0)) ∧
    ((write_raw_tty write tty fd (some buf) data_sz fuel).1 = some 0 →
      accepted_total (write_raw_tty write tty fd (some buf) data_sz fuel).2 = data_sz) ∧
    ((write_raw_tty write tty fd (some buf) data_sz fuel).1 = none →
      (write_raw_tty write tty fd (some buf) data_sz fuel).2.length = fuel ∧
      ∀ (i off : Nat) (cnt ret : Int),
        (write_raw_tty write tty fd (some buf) data_sz fuel).2[i]? = some (off, cnt, ret) →
        0 < ret) := by
  obtain ⟨new, h2, h3, h4, h5⟩ := write_loop_calls write buf fuel
    { tty := tty, data := 0, remain_len := Int.ofNat data_sz, calls := [] }
  simp only [List.nil_append] at h2 h3 h4 h5
  unfold write_raw_tty
  simp only
  rw [if_neg (by omega)]
  by_cases hflag : (write_raw_tty_loop write buf fuel
      { tty := tty, data := 0, remain_len := Int.ofNat data_sz, calls := [] }).2 = true
  · rw [if_pos hflag]
    simp only [h2, h3]
    refine ⟨?_, ?_, ?_⟩
    · intro i off cnt ret hi hret
      obtain ⟨h6, h7⟩ := h4 i off cnt ret hi
      obtain ⟨h8, _⟩ := h7 hret
      have h9 : accepted_total new = accepted_total (new.take i) := by
        have e := accepted_total_take_succ new i (off, cnt, ret) hi
        rw [h8, List.take_length] at e
        rw [e]
        simp only
        omega
      rw [h9, ← h6]
      exact ⟨h8, rfl, rfl⟩
    · intro hr
      simp only [Option.some.injEq] at hr
      split at hr
      · exact absurd hr (by decide)
      · rename_i hz
        simp only [Int.ofNat_eq_coe, ne_eq, Decidable.not_not] at hz
        omega
    · intro hr
      simp at hr
  · rw [if_neg hflag]
    simp only [Bool.not_eq_true] at hflag
    simp only [h2]
    refine ⟨?_, ?_, ?_⟩
    · intro i off cnt ret hi hret
      have := (h5 hflag).2 i off cnt ret hi
      omega
    · intro hr
      simp at hr
    · intro _
      exact h5 hflag

/-- Witness for C12: a transport that accepts 2 bytes and then fails, a 5-byte
buffer: the second call, for the 3 bytes still unsent, is the last one and the
result is `-EFAULT`. -/
theorem nonpositive_write_terminal_witness :
    (write_raw_tty (fun (s : Nat) (_ : Nat → Nat) (_ : Int) => (if s = 0 then (2 : Int) else -1, s + 1))
        0 3 (some (ofList [1, 2, 3, 4, 5])) 5 10).2[1]? = some (2, 3, -1) ∧
    1 + 1 = (write_raw_tty
        (fun (s : Nat) (_ : Nat → Nat) (_ : Int) => (if s = 0 then (2 : Int) else -1, s + 1))
        0 3 (some (ofList [1, 2, 3, 4, 5])) 5 10).2.length ∧
    (3 : Int) = Int.ofNat 5 - Int.ofNat (accepted_total (write_raw_tty
        (fun (s : Nat) (_ : Nat → Nat) (_ : Int) => (if s = 0 then (2 : Int) else -1, s + 1))
        0 3 (some (ofList [1, 2, 3, 4, 5])) 5 10).2) ∧
    (write_raw_tty (fun (s : Nat) (_ : Nat → Nat) (_ : Int) => (if s = 0 then (2 : Int) else -1, s + 1))
        0 3 (some (ofList [1, 2, 3, 4, 5])) 5 10).1
      = some (if (3 : Int) ≠ 0 then -EFAULT else 0) :=
  ⟨by decide,
    (nonpositive_write_terminal
      (fun (s : Nat) (_ : Nat → Nat) (_ : Int) => (if s = 0 then (2 : Int) else -1, s + 1))
      0 3 (ofList [1, 2, 3, 4, 5]) 5 10 (by decide) (by decide)).1 1 2 3 (-1) (by decide)
      (by decide)⟩

/-! ## The column-major transform for all 16-bit dimensions -/

theorem for_upto_invariant {σ : Type} (P : σ → Prop) (f : Nat → σ → σ)
    (h : ∀ k s, P s → P (f k s)) (n : Nat) (s : σ) (hs : P s) : P (for_upto n f s) := by
  induction n with
  | zero => exact hs
  | succ n ih => exact h n _ ih

/-- The counter `n` is a `uint16_t`: whatever the dimensions, `transform_data`
never writes a cell at or behind offset `2 * 65536` of its output. -/
theorem transform_data_untouched (mem : Nat → Nat) (base : Nat) (input : Nat → Nat)
    (rows cols p : Nat) (hp : base + 131072 ≤ p) :
    transform_data mem base input rows cols p = mem p := by
  unfold transform_data transform_data_loop
  have h := for_upto_invariant (fun st : (Nat → Nat) × Nat => st.2 < 65536 ∧ st.1 p = mem p)
    (fun col st =>
      for_upto (rows / 8) (fun row st => transform_data_body base input cols col row st) st)
    (fun col st hst => for_upto_invariant
      (fun st : (Nat → Nat) × Nat => st.2 < 65536 ∧ st.1 p = mem p)
      (fun row st => transform_data_body base input cols col row st)
      (fun row st hst => by
        unfold transform_data_body
        simp only
        refine ⟨Nat.mod_lt _ (by decide), ?_⟩
        rw [store_ne _ _ _ _ (by omega), store_ne _ _ _ _ (by omega)]
        exact hst.2)
      (rows / 8) st hst)
    cols (mem, 0) ⟨by show 0 < 65536; decide, rfl⟩
  exact h.2

theorem transform_body_written_mod (base : Nat) (input : Nat → Nat) (R cols col row : Nat)
    (mem : Nat → Nat) (hrow : row < R) (hcol : col < cols) (hN : R * cols ≤ 65536) :
    transform_data_body base input cols col row
        (transform_written base input R cols (col * R + row) mem, (col * R + row) % 65536)
      = (transform_written base input R cols (col * R + row + 1) mem,
          (col * R + row + 1) % 65536) := by
  have hk : col * R + row < R * cols := by
    have h1 : col * R + R ≤ cols * R := by
      have := Nat.mul_le_mul_right R (Nat.succ_le_of_lt hcol)
      rw [Nat.succ_mul] at this
      exact this
    rw [Nat.mul_comm R cols]
    omega
  have hlin : row * cols + col < R * cols := by
    have h1 : row * cols + cols ≤ R * cols := by
      have := Nat.mul_le_mul_right cols (Nat.succ_le_of_lt hrow)
      rw [Nat.succ_mul] at this
      exact this
    omega
  have hmod : (col * R + row) % R = row := by
    rw [Nat.add_comm, Nat.add_mul_mod_self_right, Nat.mod_eq_of_lt hrow]
  have hdiv : (col * R + row) / R = col := by
    have hR : 0 < R := by omega
    rw [Nat.add_comm, Nat.add_mul_div_right _ _ hR, Nat.div_eq_of_lt hrow, Nat.zero_add]
  unfold transform_data_body
  simp only
  rw [Nat.mod_eq_of_lt (by omega : row * cols + col < 65536),
    Nat.mod_eq_of_lt (by omega : col * R + row < 65536)]
  congr 1
  funext p
  unfold store transform_written
  have hH := HBYTE_lt (load input (row * cols + col))
  have hL := LBYTE_lt (load input (row * cols + col))
  by_cases h1 : p = base + ((col * R + row) * 2 + 1)
  · have hq : (p - base) / 2 = col * R + row := by omega
    rw [if_pos h1, if_pos (by omega), if_neg (by omega), hq, hmod, hdiv, Nat.mod_eq_of_lt hL]
  · rw [if_neg h1]
    by_cases h0 : p = base + (col * R + row) * 2
    · have hq : (p - base) / 2 = col * R + row := by omega
      rw [if_pos h0, if_pos (by omega), if_pos (by omega), hq, hmod, hdiv, Nat.mod_eq_of_lt hH]
    · rw [if_neg h0]
      by_cases hin : base ≤ p ∧ p < base + 2 * (col * R + row)
      · have hin2 : base ≤ p ∧ p < base + 2 * (col * R + row + 1) := by omega
        rw [if_pos hin, if_pos hin2]
      · have hin2 : ¬ (base ≤ p ∧ p < base + 2 * (col * R + row + 1)) := by omega
        rw [if_neg hin, if_neg hin2]

theorem transform_inner_written_mod (base : Nat) (input : Nat → Nat) (R cols col : Nat)
    (mem : Nat → Nat) (hcol : col < cols) (hN : R * cols ≤ 65536) (r : Nat) (hr : r ≤ R) :
    for_upto r (fun row st => transform_data_body base input cols col row st)
        (transform_written base input R cols (col * R) mem, (col * R) % 65536)
      = (transform_written base input R cols (col * R + r) mem, (col * R + r) % 65536) := by
  induction r with
  | zero => rfl
  | succ r ih =>
    rw [for_upto_succ, ih (by omega)]
    exact transform_body_written_mod base input R cols col r mem (by omega) hcol hN

theorem transform_outer_written_mod (base : Nat) (input : Nat → Nat) (R cols : Nat)
    (mem : Nat → Nat) (hN : R * cols ≤ 65536) (c : Nat) (hc : c ≤ cols) :
    for_upto c (fun col st =>
        for_upto R (fun row st => transform_data_body base input cols col row st) st) (mem, 0)
      = (transform_written base input R cols (c * R) mem, (c * R) % 65536) := by
  induction c with
  | zero =>
    rw [for_upto_zero, Nat.zero_mul, transform_written_zero]
  | succ c ih =>
    rw [for_upto_succ, ih (by omega),
      transform_inner_written_mod base input R cols c mem (by omega) hN R (Nat.le_refl R)]
    rw [Nat.succ_mul]

/-- Closed form of `transform_data` when the counter `n` wraps at the earliest
behind the last cell. -/
theorem transform_data_eq_le (mem : Nat → Nat) (base : Nat) (input : Nat → Nat)
    (rows cols : Nat) (hN : rows / 8 * cols ≤ 65536) :
    transform_data mem base input rows cols
      = transform_written base input (rows / 8) cols (rows / 8 * cols) mem := by
  unfold transform_data transform_data_loop
  rw [transform_outer_written_mod base input (rows / 8) cols mem hN cols (Nat.le_refl cols)]
  rw [Nat.mul_comm cols]

theorem isHexChar_ASCII_BYTE (d : Nat) (h : d < 16) : isHexChar (ASCII_BYTE d) = true := by
  interval_cases d <;> rfl

/-- C13, counterexample: a 16 x 40000 bitmap. The claimed output length is
`2 * (16/8) * 40000 = 160000`, but the cell at offset 131072 is never written:
in a block that was all zero it still holds 0, which is not a hex digit. -/
theorem transform_data_output_short :
    16 % 8 = 0 ∧ 16 < 65536 ∧ 40000 < 65536 ∧ 131072 < 2 * (16 / 8) * 40000 ∧
    transform_data (fun _ => 0) 0 (fun _ => 0) 16 40000 131072 = 0 ∧
    isHexChar 0 = false :=
  ⟨by decide, by decide, by decide, by decide,
    transform_data_untouched (fun _ => 0) 0 (fun _ => 0) 16 40000 131072 (by decide), by decide⟩

/-- C13, amended: for `rows` a multiple of 8 and `cols` with
`(rows/8) * cols ≤ 65536`, the output written by `transform_data` has length
exactly `2 * (rows/8) * cols`: each of the first `2 * (rows/8) * cols` cells at
the output pointer is written with one of the characters `'0'`-`'9'`,
`'A'`-`'F'` (whatever it held before), and no other cell is changed. -/
theorem transform_data_output (mem : Nat → Nat) (ascii_bytes : Nat) (input : Nat → Nat)
    (rows cols : Nat) (_h8 : rows % 8 = 0) (hN : rows / 8 * cols ≤ 65536) :
    (∀ p, p < 2 * (rows / 8) * cols →
      isHexChar (transform_data mem ascii_bytes input rows cols (ascii_bytes + p)) = true ∧
      transform_data mem ascii_bytes input rows cols (ascii_bytes + p)
        = transform_data (fun _ => 0) ascii_bytes input rows cols (ascii_bytes + p)) ∧
    (∀ p, p < ascii_bytes ∨ ascii_bytes + 2 * (rows / 8) * cols ≤ p →
      transform_data mem ascii_bytes input rows cols p = mem p) := by
  rw [transform_data_eq_le _ _ _ _ _ hN, transform_data_eq_le _ _ _ _ _ hN]
  unfold transform_written
  constructor
  · intro p hp
    rw [Nat.mul_assoc] at hp
    have hin : ascii_bytes ≤ ascii_bytes + p ∧
        ascii_bytes + p < ascii_bytes + 2 * (rows / 8 * cols) := by omega
    simp only [hin, and_self, if_true, and_true]
    split
    · exact isHexChar_ASCII_BYTE _ (HNIBBLE_lt _)
    · exact isHexChar_ASCII_BYTE _ (LNIBBLE_lt _)
  · intro p hp
    rw [Nat.mul_assoc] at hp
    rw [if_neg (by omega)]

/-- Witness for C13 (amended): a 16 x 2 bitmap, output cell 5, and the cell
behind the output. -/
theorem transform_data_output_witness :
    (isHexChar (transform_data (fun _ => 7) 3 (ofList [0x12, 0xAB, 0x34, 0xCD]) 16 2 (3 + 5)) = true ∧
      transform_data (fun _ => 7) 3 (ofList [0x12, 0xAB, 0x34, 0xCD]) 16 2 (3 + 5)
        = transform_data (fun _ => 0) 3 (ofList [0x12, 0xAB, 0x34, 0xCD]) 16 2 (3 + 5)) ∧
    transform_data (fun _ => 7) 3 (ofList [0x12, 0xAB, 0x34, 0xCD]) 16 2 11 = (fun _ => 7) 11 :=
  ⟨(transform_data_output (fun _ => 7) 3 (ofList [0x12, 0xAB, 0x34, 0xCD]) 16 2 (by decide)
      (by decide)).1 5 (by decide),
    (transform_data_output (fun _ => 7) 3 (ofList [0x12, 0xAB, 0x34, 0xCD]) 16 2 (by decide)
      (by decide)).2 11 (by decide)⟩

/-! ## Frame length and checksum range -/

/-- C14, counterexample: for a 16 x 65535 bitmap `byteCount` is 131070 and
`1 + 2 + 2 + 2*byteCount + 1 + 2` is 262148, but the length reported through
`n_data` is 4; and for the 16 x 96 bitmap the length reported is
`1 + 2 + 2 + 2*192 + 1 + 2 = 392`, not 390. -/
theorem frame_length_wraps :
    16 % 8 = 0 ∧ 16 < 65536 ∧ 65535 < 65536 ∧
    1 + 2 + 2 + 2 * (16 * 65535 / 8) + 1 + 2 = 262148 ∧
    (matrix_to_raw (some (fun _ => 0)) (fun _ => 0) 16 65535 1).map Prod.snd = some 4 ∧
    (matrix_to_raw (some (fun _ => 0)) (fun _ => 0) 16 96 1).map Prod.snd = some 392 ∧
    392 ≠ 390 := by
  decide

/-- The length `matrix_to_raw` reports, for all dimensions. -/
theorem matrix_to_raw_n_data (junk matrix : Nat → Nat) (rows cols addr : Nat) :
    (matrix_to_raw (some junk) matrix rows cols addr).map Prod.snd
      = some ((1 + 2 + 2 + (rows * cols / 8 % 65536) * 2 + 1 + 2) % 65536) := by
  unfold matrix_to_raw
  rfl

/-- C14, amended: for `rows` a multiple of 8 and `cols` with
`1 + 2 + 2 + 2*byteCount + 1 + 2 ≤ 65535`, `byteCount = (rows*cols)/8`, the
frame length that `matrix_to_raw` reports through `n_data` is
`1 + 2 + 2 + 2*byteCount + 1 + 2` (a 16 x 96 bitmap gives 392). -/
theorem frame_length (junk matrix : Nat → Nat) (rows cols addr : Nat) (_h8 : rows % 8 = 0)
    (hlen : 1 + 2 + 2 + 2 * (rows * cols / 8) + 1 + 2 ≤ 65535) :
    (matrix_to_raw (some junk) matrix rows cols addr).map Prod.snd
      = some (1 + 2 + 2 + 2 * (rows * cols / 8) + 1 + 2) := by
  rw [matrix_to_raw_n_data]
  congr 1
  omega

/-- Witness for C14 (amended): a 16 x 96 bitmap gives 392. -/
theorem frame_length_witness :
    (matrix_to_raw (some (fun _ => 0)) (fun _ => 0) 16 96 1).map Prod.snd
      = some (1 + 2 + 2 + 2 * (16 * 96 / 8) + 1 + 2) ∧
    1 + 2 + 2 + 2 * (16 * 96 / 8) + 1 + 2 = 392 :=
  ⟨frame_length (fun _ => 0) (fun _ => 0) 16 96 1 (by decide) (by decide), by decide⟩

/-- C15, counterexample: the one-byte sequence `[0x02]`; `calc_chksum` returns
256, which is not in the range 0..255. -/
theorem calc_chksum_not_a_byte :
    1 ≤ [0x02].length ∧ [0x02].length ≤ 65535 ∧ (∀ b ∈ [0x02], b < 256) ∧
    calc_chksum (ofList [0x02]) [0x02].length = 256 ∧ ¬ (256 ≤ 255) := by
  decide

/-- C15, amended: for every byte sequence of length 1..65535 the value returned
by `calc_chksum` lies in the range 1..256 (it is a `uint16_t`; 256 stands for
the checksum byte 0), and its low 8 bits, which `matrix_to_raw` encodes, are a
byte. -/
theorem calc_chksum_range (d : List Nat) (_hd : ∀ b ∈ d, b < 256) (_h1 : 1 ≤ d.length)
    (_h2 : d.length ≤ 65535) :
    1 ≤ calc_chksum (ofList d) d.length ∧ calc_chksum (ofList d) d.length ≤ 256 ∧
    calc_chksum (ofList d) d.length &&& 0xff ≤ 255 := by
  rw [and_ff_eq, calc_chksum_eq]
  omega

/-- Witness for C15 (amended): the sequence `[0x02, 0x31, 0x31]`. -/
theorem calc_chksum_range_witness :
    1 ≤ calc_chksum (ofList [0x02, 0x31, 0x31]) [0x02, 0x31, 0x31].length ∧
    calc_chksum (ofList [0x02, 0x31, 0x31]) [0x02, 0x31, 0x31].length ≤ 256 ∧
    calc_chksum (ofList [0x02, 0x31, 0x31]) [0x02, 0x31, 0x31].length &&& 0xff ≤ 255 :=
  calc_chksum_range [0x02, 0x31, 0x31] (by decide) (by decide) (by decide)

/-! ## Text layout: the scenarios of the specification -/

/-- C16, the code at the failing input: `"a bbbbbbbbbbbbb"` (a word of 13
letters) on the 16 x 96 panel (12 cells per row). The space is rasterized at
cell (0,1) and the first letter of the word at the same cell (0,1), not at
(0,2): on this path the cursor is not advanced behind the space. -/
theorem long_word_overwrites_space :
    8 ≤ 96 ∧ 96 / 8 < [98, 98, 98, 98, 98, 98, 98, 98, 98, 98, 98, 98, 98].length ∧
    (sprintf_display (fun _ _ => 0)
      ([97, 32] ++ [98, 98, 98, 98, 98, 98, 98, 98, 98, 98, 98, 98, 98]) (fun _ => 0) 16
      96).cells.getD 1 none = some (0, 1) ∧
    (sprintf_display (fun _ _ => 0)
      ([97, 32] ++ [98, 98, 98, 98, 98, 98, 98, 98, 98, 98, 98, 98, 98]) (fun _ => 0) 16
      96).cells.getD 2 none = some (0, 1) ∧
    (sprintf_display (fun _ _ => 0)
      ([97, 32] ++ [98, 98, 98, 98, 98, 98, 98, 98, 98, 98, 98, 98, 98]) (fun _ => 0) 16
      96).cells.getD 2 none ≠ some (0, 2) := by
  decide

/-- C18, counterexample: on the 16 x 24 panel the word `"bb"` of `"a bb ccc"`
does not start at cell (0,2). -/
theorem scenario_bb_not_in_row_0 :
    (sprintf_display (fun _ _ => 0) [97, 32, 98, 98, 32, 99, 99, 99] (fun _ => 0) 16 24).cells.getD
      2 none ≠ some (0, 2) := by
  decide

/-- C18, amended: laying out `"a bb ccc"` on a grid of 3 columns x 2 rows
(`rows = 16`, `cols = 24`) rasterizes `'a'` at cell (0,0), then a space at cell
(0,1), then the word `"bb"` starting at cell (1,0) (it does not fit the one
cell left in row 0), then a space at cell (1,2), and returns 5: `"ccc"` is left
for the next call. -/
theorem scenario_a_bb_ccc :
    (sprintf_display (fun _ _ => 0) [97, 32, 98, 98, 32, 99, 99, 99] (fun _ => 0) 16 24).cells
      = [some (0, 0), some (0, 1), some (1, 0), some (1, 1), some (1, 2)] ∧
    (sprintf_display (fun _ _ => 0) [97, 32, 98, 98, 32, 99, 99, 99] (fun _ => 0) 16
      24).processed_chars = 5 ∧
    (sprintf_display (fun _ _ => 0) [97, 32, 98, 98, 32, 99, 99, 99] (fun _ => 0) 16
      24).returned = true := by
  decide

/-- C20, the code at the failing input: the 16-character message
`"a bbbbbbbbbbbb c"` on the 16 x 96 panel. The word of 12 letters is moved to
row 1 and fills it, the space behind it is skipped at column 0 of row 2, and
`'c'` is rasterized at cell (2,0): `set_dot` writes the bytes from index
`2 * 96 = 192` on, behind the 192 bytes of `display_area` (with a font whose
glyphs have every pixel set, bit 0 of byte 192 is set in a bitmap that was all
zero). -/
theorem page_layout_leaves_bitmap :
    [97, 32, 98, 98, 98, 98, 98, 98, 98, 98, 98, 98, 98, 98, 32, 99].length
      ≤ (DISPLAY_N_ROWS / 8) * (DISPLAY_N_COLS / 8) ∧
    (sprintf_display (fun _ _ => 255)
      [97, 32, 98, 98, 98, 98, 98, 98, 98, 98, 98, 98, 98, 98, 32, 99] (fun _ => 0)
      DISPLAY_N_ROWS DISPLAY_N_COLS).cells.getD 15 none = some (2, 0) ∧
    pixel (sprintf_display (fun _ _ => 255)
      [97, 32, 98, 98, 98, 98, 98, 98, 98, 98, 98, 98, 98, 98, 32, 99] (fun _ => 0)
      DISPLAY_N_ROWS DISPLAY_N_COLS).display_area 192 0 = true ∧
    pixel (fun _ => 0) 192 0 = false ∧
    ¬ (192 < (DISPLAY_N_ROWS / 8) * DISPLAY_N_COLS) := by
  have hcells : (sprintf_display (fun _ _ => 255)
      [97, 32, 98, 98, 98, 98, 98, 98, 98, 98, 98, 98, 98, 98, 32, 99] (fun _ => 0)
      DISPLAY_N_ROWS DISPLAY_N_COLS).cells
      = [some (0, 0), some (0, 1), some (1, 0), some (1, 1), some (1, 2), some (1, 3),
          some (1, 4), some (1, 5), some (1, 6), some (1, 7), some (1, 8), some (1, 9),
          some (1, 10), some (1, 11), none, some (2, 0)] := by decide
  refine ⟨by decide, by rw [hcells]; rfl, ?_, by decide, by decide⟩
  have h := loop_glyph_pixels (fun _ _ => 255) DISPLAY_N_ROWS DISPLAY_N_COLS
    [97, 32, 98, 98, 98, 98, 98, 98, 98, 98, 98, 98, 98, 98, 32, 99]
    { display_area := fun _ => 0, char_row := 0, char_col := 0, processed_chars := 0,
      cells := [], returned := false } 15 2 0
    (by
      show (sprintf_display (fun _ _ => 255) _ (fun _ => 0) DISPLAY_N_ROWS
        DISPLAY_N_COLS).cells.getD (0 + 15) none = _
      rw [hcells]
      rfl)
    (by decide) (by decide)
    (by
      intro n2 r2 c2 hn h2
      have h3 : (sprintf_display (fun _ _ => 255)
          [97, 32, 98, 98, 98, 98, 98, 98, 98, 98, 98, 98, 98, 98, 32, 99] (fun _ => 0)
          DISPLAY_N_ROWS DISPLAY_N_COLS).cells.getD n2 none = some (r2, c2) := h2
      rw [hcells, List.getD_eq_default _ _ (by simp at hn ⊢; omega)] at h3
      exact absurd h3 (by simp))
    0 0 (by decide) (by decide)
  exact h

/-! ## Text layout: the cursor moves forward -/

/-- The first record the loop makes from a state, when it is a cell, is the
cursor of that state. -/
theorem loop_first_record (font : Nat → Nat → Nat) (rows cols : Nat) (msg : List Nat)
    (s : Layout) (r c : Nat)
    (h : (sprintf_display_loop font rows cols msg s).cells.getD s.cells.length none
      = some (r, c)) : r = s.char_row ∧ c = s.char_col := by
  cases msg with
  | nil =>
    rw [sprintf_display_loop, List.getD_eq_default _ _ (Nat.le_refl _)] at h
    exact absurd h (by simp)
  | cons ch rest =>
    by_cases hch : ch = 0
    · rw [sprintf_display_loop, if_pos hch, List.getD_eq_default _ _ (Nat.le_refl _)] at h
      exact absurd h (by simp)
    rcases loop_cons_cases font rows cols ch rest s hch with he | ⟨s2, he, hcells, _⟩
    · rw [he] at h
      obtain ⟨t, ht⟩ := loop_cells_append font rows cols rest (s.next none)
      rw [ht, next_cells, getD_length_append] at h
      exact absurd h (by simp)
    · have h2 : (sprintf_display_loop font rows cols (ch :: rest) s).cells.getD
          s.cells.length none = some (s.char_row, s.char_col) := by
        rcases he with he | he
        · obtain ⟨t, ht⟩ := loop_cells_append font rows cols rest s2
          rw [he, ht, hcells, getD_length_append]
        · have h0 := getD_length_append s.cells [] (some (s.char_row, s.char_col))
          rw [List.append_nil] at h0
          rw [he, hcells, h0]
      rw [h2] at h
      simp only [Option.some.injEq, Prod.mk.injEq] at h
      exact ⟨h.1.symm, h.2.symm⟩

/-- One pass of the loop over a character other than NUL: a space is skipped
at column 0, or the glyph of the character is rasterized at the cursor. -/
theorem loop_cons_skip_or_draw (font : Nat → Nat → Nat) (rows cols : Nat) (ch : Nat)
    (rest : List Nat) (s : Layout) (hch : ch ≠ 0) :
    (ch = 32 ∧ s.char_col = 0 ∧
      sprintf_display_loop font rows cols (ch :: rest) s
        = sprintf_display_loop font rows cols rest (s.next none)) ∨
    (∃ s2, (sprintf_display_loop font rows cols (ch :: rest) s
          = sprintf_display_loop font rows cols rest s2 ∨
        sprintf_display_loop font rows cols (ch :: rest) s = s2) ∧
      s2.cells = s.cells ++ [some (s.char_row, s.char_col)]) := by
  simp only [sprintf_display_loop, if_neg hch]
  split_ifs
  · rename_i h
    exact Or.inl ⟨h.1, h.2, rfl⟩
  · exact Or.inr ⟨_, Or.inl rfl, rfl⟩
  · exact Or.inr ⟨_, Or.inl rfl, rfl⟩
  · exact Or.inr ⟨_, Or.inr rfl, rfl⟩
  · exact Or.inr ⟨_, Or.inl rfl, by rw [next_cells, advance_cells]⟩
  · exact Or.inr ⟨_, Or.inl rfl, by rw [next_cells, advance_cells]⟩

/-- A character other than NUL and space is rasterized at the cursor. -/
theorem loop_nonspace_record (font : Nat → Nat → Nat) (rows cols : Nat) (ch : Nat)
    (rest : List Nat) (s : Layout) (hch : ch ≠ 0) (hsp : ch ≠ 32) :
    (sprintf_display_loop font rows cols (ch :: rest) s).cells.getD s.cells.length none
      = some (s.char_row, s.char_col) := by
  rcases loop_cons_skip_or_draw font rows cols ch rest s hch with
    ⟨h32, _⟩ | ⟨s2, h | h, hcells⟩
  · exact absurd h32 hsp
  · obtain ⟨t, ht⟩ := loop_cells_append font rows cols rest s2
    rw [h, ht, hcells]
    exact getD_length_append _ _ _
  · rw [h, hcells]
    have := getD_length_append s.cells [] (some (s.char_row, s.char_col))
    simp

/-- The loop over a message `pre ++ rest` that makes a record for the first
character of `rest` reaches `rest` with one record and one count per character
of `pre`. -/
theorem loop_reach (font : Nat → Nat → Nat) (rows cols : Nat) (rest : List Nat)
    (pre : List Nat) :
    ∀ s : Layout, (∀ c ∈ pre, c ≠ 0) →
      s.cells.length + pre.length
        < (sprintf_display_loop font rows cols (pre ++ rest) s).cells.length →
      ∃ s2, sprintf_display_loop font rows cols (pre ++ rest) s
          = sprintf_display_loop font rows cols rest s2 ∧
        s2.cells.length = s.cells.length + pre.length ∧
        s2.processed_chars % 65536 = (s.processed_chars + pre.length) % 65536 := by
  induction pre with
  | nil =>
    intro s _ _
    exact ⟨s, rfl, rfl, rfl⟩
  | cons ch pre2 ih =>
    intro s hz hlt
    have hch : ch ≠ 0 := hz ch (List.mem_cons_self _ _)
    have hz2 : ∀ c ∈ pre2, c ≠ 0 := fun c hc => hz c (List.mem_cons_of_mem _ hc)
    rw [List.cons_append] at hlt ⊢
    rw [List.length_cons] at hlt ⊢
    have key : ∀ s1 : Layout,
        sprintf_display_loop font rows cols (ch :: (pre2 ++ rest)) s
          = sprintf_display_loop font rows cols (pre2 ++ rest) s1 →
        s1.cells.length = s.cells.length + 1 →
        s1.processed_chars = (s.processed_chars + 1) % 65536 →
        ∃ s2, sprintf_display_loop font rows cols (ch :: (pre2 ++ rest)) s
            = sprintf_display_loop font rows cols rest s2 ∧
          s2.cells.length = s.cells.length + (pre2.length + 1) ∧
          s2.processed_chars % 65536 = (s.processed_chars + (pre2.length + 1)) % 65536 := by
      intro s1 he hc hp
      rw [he] at hlt
      obtain ⟨s2, h1, h2, h3⟩ := ih s1 hz2 (by omega)
      refine ⟨s2, by rw [he, h1], by omega, ?_⟩
      rw [h3, hp]
      omega
    have hret : ∀ s1 : Layout,
        sprintf_display_loop font rows cols (ch :: (pre2 ++ rest)) s = s1 →
        s1.cells.length = s.cells.length + 1 →
        ∃ s2, sprintf_display_loop font rows cols (ch :: (pre2 ++ rest)) s
            = sprintf_display_loop font rows cols rest s2 ∧
          s2.cells.length = s.cells.length + (pre2.length + 1) ∧
          s2.processed_chars % 65536 = (s.processed_chars + (pre2.length + 1)) % 65536 := by
      intro s1 he hc
      rw [he] at hlt
      omega
    revert key hret
    simp only [sprintf_display_loop, if_neg hch]
    split_ifs
    · intro key _
      exact key _ rfl (by simp) (by simp)
    · intro key _
      exact key _ rfl (by simp) (by simp)
    · intro key _
      exact key _ rfl (by simp [Layout.next]) (by simp [Layout.next])
    · intro _ hret
      exact hret _ rfl (by simp)
    · intro key _
      exact key _ rfl (by simp) (by simp)
    · intro key _
      exact key _ rfl (by simp) (by simp)

/-- The lookahead at a space rasterized at a column other than 0 and followed
by a word that fits a row: the word goes on in the row, or starts the next
row, or the layout returns. -/
theorem loop_space_before_word (font : Nat → Nat → Nat) (rows cols : Nat)
    (hc16 : cols < 65536) (hr16 : rows < 65536) (word post : List Nat)
    (hword : ∀ c ∈ word, c ≠ 0 ∧ c ≠ 32) (hne : word ≠ [])
    (hpost : post = [] ∨ post.head? = some 32) (hfit : word.length ≤ cols / 8)
    (s : Layout) (hc : 0 < s.char_col) :
    (word.length + s.char_col + 2 ≤ cols / 8 →
      (sprintf_display_loop font rows cols (32 :: (word ++ post)) s).cells.getD
        (s.cells.length + 1) none = some (s.char_row, s.char_col + 1)) ∧
    (¬ word.length + s.char_col + 2 ≤ cols / 8 → s.char_row + 1 < rows / 8 →
      (sprintf_display_loop font rows cols (32 :: (word ++ post)) s).cells.getD
        (s.cells.length + 1) none = some (s.char_row + 1, 0)) ∧
    (¬ word.length + s.char_col + 2 ≤ cols / 8 → ¬ s.char_row + 1 < rows / 8 →
      (sprintf_display_loop font rows cols (32 :: (word ++ post)) s).returned = true ∧
      (sprintf_display_loop font rows cols (32 :: (word ++ post)) s).cells.length
        = s.cells.length + 1 ∧
      (sprintf_display_loop font rows cols (32 :: (word ++ post)) s).processed_chars
        = (s.processed_chars + 1) % 65536) := by
  have hwl := word_len_append word post hword hpost
  cases word with
  | nil => exact absurd rfl hne
  | cons w ws =>
    have hw := hword w (List.mem_cons_self _ _)
    have hcol : ¬ ((32 : Nat) = 32 ∧ s.char_col = 0) := by omega
    have hla : (32 : Nat) = 32 ∧ (w :: ws ++ post).headD 0 ≠ 0 ∧ (w :: ws ++ post).headD 0 ≠ 32 :=
      ⟨rfl, hw.1, hw.2⟩
    have hlong : ¬ Int.ofNat (word_len (w :: ws ++ post)) > Int.ofNat (cols / 8) := by
      rw [hwl]
      simp only [Int.ofNat_eq_coe]
      omega
    have hsub : Int.ofNat (w :: ws).length > Int.ofNat (cols / 8) - Int.ofNat s.char_col - 1 - 1
        ↔ ¬ (w :: ws).length + s.char_col + 2 ≤ cols / 8 := by
      simp only [Int.ofNat_eq_coe]
      omega
    have hrow : Int.ofNat s.char_row < Int.ofNat (rows / 8) - 1 ↔ s.char_row + 1 < rows / 8 := by
      simp only [Int.ofNat_eq_coe]
      omega
    have hrec : ∀ s1 : Layout,
        (sprintf_display_loop font rows cols (w :: ws ++ post) s1).cells.getD s1.cells.length none
          = some (s1.char_row, s1.char_col) :=
      fun s1 => loop_nonspace_record font rows cols w (ws ++ post) s1 hw.1 hw.2
    have hla2 : True ∧ (w :: ws ++ post).headD 0 ≠ 0 ∧ (w :: ws ++ post).headD 0 ≠ 32 :=
      ⟨trivial, hw.1, hw.2⟩
    rw [sprintf_display_loop, if_neg (by decide), if_neg hcol]
    simp only [if_pos hla, if_pos hla2, if_neg hlong]
    rw [hwl]
    generalize draw_glyph (get_font_char font 32) s.display_area (s.char_row * 8 % 65536)
      (s.char_col * 8 % 65536) = a
    refine ⟨?_, ?_, ?_⟩
    · intro h1
      rw [if_neg (fun h => (hsub.1 h) h1)]
      have h2 := hrec ((Layout.advance { s with display_area := a } cols).next
        (some (s.char_row, s.char_col)))
      simp only [next_cells, advance_cells, List.length_append, List.length_singleton,
        next_char_row, next_char_col] at h2
      rw [h2]
      unfold Layout.advance
      rw [if_pos (by simp only [Int.ofNat_eq_coe]; omega)]
      show some (s.char_row, (s.char_col + 1) % 65536) = some (s.char_row, s.char_col + 1)
      rw [Nat.mod_eq_of_lt (by omega)]
    · intro h1 h2
      rw [if_pos (hsub.2 h1), if_pos (hrow.2 h2)]
      have h3 := hrec (Layout.next
        { { s with display_area := a } with char_row := (s.char_row + 1) % 65536, char_col := 0 }
        (some (s.char_row, s.char_col)))
      simp only [next_cells, List.length_append, List.length_singleton, next_char_row,
        next_char_col] at h3
      rw [h3]
      show some ((s.char_row + 1) % 65536, 0) = some (s.char_row + 1, 0)
      rw [Nat.mod_eq_of_lt (by omega)]
    · intro h1 h2
      rw [if_pos (hsub.2 h1), if_neg (fun h => h2 (hrow.1 h))]
      exact ⟨rfl, by simp, rfl⟩

/-- C17, counterexample: 65534 spaces followed by `"a bb"` on an 8 x 24 panel.
The space at index 65535 is rasterized at cell (0,1) and followed by the word
`"bb"` of length 2, which fits a row (2 ≤ 3) but not the rest of this one, in
the last row: the layout stops there, and the count returned is 0, not the
index of that space plus 1. -/
theorem wrap_count_wraps :
    (sprintf_display (fun _ _ => 0) (List.replicate 65534 32 ++ [97, 32, 98, 98]) (fun _ => 0) 8
      24).cells.getD 65535 none = some (0, 1) ∧
    ([98, 98].length ≤ 24 / 8 ∧ ¬ [98, 98].length + 1 + 2 ≤ 24 / 8 ∧ ¬ 0 + 1 < 8 / 8) ∧
    (sprintf_display (fun _ _ => 0) (List.replicate 65534 32 ++ [97, 32, 98, 98]) (fun _ => 0) 8
      24).returned = true ∧
    (sprintf_display (fun _ _ => 0) (List.replicate 65534 32 ++ [97, 32, 98, 98]) (fun _ => 0) 8
      24).processed_chars = 0 ∧
    (sprintf_display (fun _ _ => 0) (List.replicate 65534 32 ++ [97, 32, 98, 98]) (fun _ => 0) 8
      24).processed_chars ≠ 65535 + 1 := by
  rw [sprintf_display_leading_spaces]
  have hc : (sprintf_display (fun _ _ => 0) [97, 32, 98, 98] (fun _ => 0) 8 24).cells
      = [some (0, 0), some (0, 1)] := by
    decide
  refine ⟨?_, by decide, by decide, by decide, by decide⟩
  show (List.replicate 65534 none ++ (sprintf_display (fun _ _ => 0) [97, 32, 98, 98]
    (fun _ => 0) 8 24).cells).getD 65535 none = some (0, 1)
  rw [hc, List.getD_append_right _ _ _ _ (by rw [List.length_replicate]; decide),
    List.length_replicate]
  rfl

/-- C17, amended: wrap threshold. For every panel and every message
`pre ++ " " ++ word ++ post` in which the space (index `pre.length`) is
rasterized at a cell `(r, c)` with `c > 0` and `word` is a maximal run of
characters other than space with `1 ≤ L = word.length ≤ cols/8`: if
`L ≤ cols/8 - c - 2` the first character of the word is rasterized at
`(r, c+1)`; otherwise, if `r < rows/8 - 1`, it is rasterized at `(r+1, 0)`;
otherwise the layout stops with the space as its last record and returns the
index of that space plus 1 reduced modulo 65536, which is the index of that
space plus 1 when that is below 65536. -/
theorem wrap_threshold (font : Nat → Nat → Nat) (area : Nat → Nat) (pre word post : List Nat)
    (rows cols r c : Nat) (hc16 : cols < 65536) (hr16 : rows < 65536)
    (hz : ∀ x ∈ pre, x ≠ 0) (hword : ∀ x ∈ word, x ≠ 0 ∧ x ≠ 32) (hne : word ≠ [])
    (hpost : post = [] ∨ post.head? = some 32) (hfit : word.length ≤ cols / 8)
    (hsp : (sprintf_display font (pre ++ 32 :: (word ++ post)) area rows cols).cells.getD
      pre.length none = some (r, c))
    (hc : 0 < c) :
    (word.length + c + 2 ≤ cols / 8 →
      (sprintf_display font (pre ++ 32 :: (word ++ post)) area rows cols).cells.getD
        (pre.length + 1) none = some (r, c + 1)) ∧
    (cols / 8 < word.length + c + 2 → r + 1 < rows / 8 →
      (sprintf_display font (pre ++ 32 :: (word ++ post)) area rows cols).cells.getD
        (pre.length + 1) none = some (r + 1, 0)) ∧
    (cols / 8 < word.length + c + 2 → rows / 8 ≤ r + 1 →
      (sprintf_display font (pre ++ 32 :: (word ++ post)) area rows cols).returned = true ∧
      (sprintf_display font (pre ++ 32 :: (word ++ post)) area rows cols).cells.length
        = pre.length + 1 ∧
      (sprintf_display font (pre ++ 32 :: (word ++ post)) area rows cols).processed_chars
        = (pre.length + 1) % 65536 ∧
      (pre.length + 1 < 65536 →
        (sprintf_display font (pre ++ 32 :: (word ++ post)) area rows cols).processed_chars
          = pre.length + 1)) := by
  unfold sprintf_display at hsp ⊢
  have hlt : pre.length < (sprintf_display_loop font rows cols (pre ++ 32 :: (word ++ post))
      { display_area := area, char_row := 0, char_col := 0, processed_chars := 0,
        cells := [], returned := false }).cells.length := by
    by_contra hge
    rw [List.getD_eq_default _ _ (by omega)] at hsp
    exact absurd hsp (by simp)
  obtain ⟨s2, he, hcl, hp⟩ := loop_reach font rows cols (32 :: (word ++ post)) pre
    { display_area := area, char_row := 0, char_col := 0, processed_chars := 0,
      cells := [], returned := false } hz (by simpa using hlt)
  simp only [List.length_nil, Nat.zero_add] at hcl hp
  rw [he] at hsp ⊢
  rw [← hcl] at hsp
  obtain ⟨hr, hcc⟩ := loop_first_record font rows cols _ s2 r c hsp
  obtain ⟨h1, h2, h3⟩ := loop_space_before_word font rows cols hc16 hr16 word post hword hne
    hpost hfit s2 (by omega)
  rw [← hcl, hr, hcc]
  refine ⟨h1, fun ha hb => h2 (by omega) hb, ?_⟩
  intro ha hb
  obtain ⟨h4, h5, h6⟩ := h3 (by omega) (by omega)
  refine ⟨h4, h5, ?_, ?_⟩
  · rw [h6]
    omega
  · intro hlen
    rw [h6]
    omega

/-- Witness for C17 (amended): `"a b"` on an 8 x 32 panel puts `'b'` at (0,2);
`"a bb ccc"` on a 16 x 24 panel moves `"bb"`, which has exactly the length of
the rest of the row, to (1,0); `"a bb"` on an 8 x 24 panel stops behind the
space and returns 2. -/
theorem wrap_threshold_witness :
    (sprintf_display (fun _ _ => 0) ([97] ++ 32 :: ([98] ++ [])) (fun _ => 0) 8 32).cells.getD
      ([97].length + 1) none = some (0, 1 + 1) ∧
    (sprintf_display (fun _ _ => 0) ([97] ++ 32 :: ([98, 98] ++ [32, 99, 99, 99])) (fun _ => 0) 16
      24).cells.getD ([97].length + 1) none = some (0 + 1, 0) ∧
    (sprintf_display (fun _ _ => 0) ([97] ++ 32 :: ([98, 98] ++ [])) (fun _ => 0) 8
      24).processed_chars = [97].length + 1 :=
  ⟨(wrap_threshold (fun _ _ => 0) (fun _ => 0) [97] [98] [] 8 32 0 1 (by decide) (by decide)
      (by decide) (by decide) (by decide) (by decide) (by decide) (by decide) (by decide)).1
      (by decide),
    (wrap_threshold (fun _ _ => 0) (fun _ => 0) [97] [98, 98] [32, 99, 99, 99] 16 24 0 1
      (by decide) (by decide) (by decide) (by decide) (by decide) (by decide) (by decide)
      (by decide) (by decide)).2.1 (by decide) (by decide),
    ((wrap_threshold (fun _ _ => 0) (fun _ => 0) [97] [98, 98] [] 8 24 0 1 (by decide)
      (by decide) (by decide) (by decide) (by decide) (by decide) (by decide) (by decide)
      (by decide)).2.2 (by decide) (by decide)).2.2.2 (by decide)⟩

end Hanover
